import Mathlib

/-!
Verification of the missing-data catalog generator (`missing_gen.py`).

The source has two functions:

* `analyze_netcdf_file` — opens one NetCDF file, picks the primary variable
  (first variable name not on a fixed denylist), resolves the fill-value
  sentinel from the variable attributes (`_FillValue`, else `missing_value`,
  else none), and for each time slice of a rank-3 array counts points that are
  NaN or equal to the fill value, recording a per-day entry only when the
  count is positive.  Any exception (including open failure) is caught and the
  function returns `None`.

* `create_daily_catalog` — for each variable-group folder in a fixed list,
  registers the group, analyzes its files in parallel and folds the resulting
  `FileResult`s into a nested catalog (`variables` and `daily_summary`), then
  converts the `variables_affected` sets to lists for JSON output.

Modelling conventions used throughout:

* Python dicts are modelled as insertion-ordered association lists
  (`List (String × β)`) with `dinsert` (assignment: replace in place if the
  key exists, else append) and `dlookup`; this matches Python dict semantics.
* Python sets of strings are modelled as duplicate-free lists with `pyAdd`
  (add if absent).  Python's set iteration order is hash-based and
  unspecified; the model uses insertion order.  No theorem below depends on a
  particular set order except where explicitly discussed.
* NumPy float values are modelled by `Val`: either NaN or an exact rational.
  The only operations the source performs on values are `np.isnan` and exact
  `==` comparison, both captured faithfully (NaN compares unequal to
  everything, including itself).
* `round(x, 2)` is modelled as round-half-to-even on exact rationals
  (`roundTo2`); binary floating-point representation noise is not modelled.
* A rank-3 NumPy array of shape `t × y × x` is modelled by its shape together
  with its row-major flattened data, so time slice `i` is the sub-list of
  length `y*x` starting at offset `i*(y*x)`, and `time_slice.size = y*x`.
-/

/-! ### Association-list model of Python dicts -/

/-- First-some choice on options (`match o with some v ⇒ some v | none ⇒ o'`). -/
def oget {β : Type} (o o' : Option β) : Option β :=
  match o with
  | some v => some v
  | none => o'

/-- Lookup in an association list: the value of the first matching key. -/
def dlookup {β : Type} (k : String) : List (String × β) → Option β
  | [] => none
  | (k', v) :: t => if k = k' then some v else dlookup k t

/-- Python dict assignment `d[k] = v`: replace the value in place at the first
occurrence of `k`, else append `(k, v)` at the end. -/
def dinsert {β : Type} (k : String) (v : β) : List (String × β) → List (String × β)
  | [] => [(k, v)]
  | (k', v') :: t => if k' = k then (k, v) :: t else (k', v') :: dinsert k v t

/-- Python `d.update(other)`: assign every pair of `other`, in order. -/
def dupdate {β : Type} (d other : List (String × β)) : List (String × β) :=
  other.foldl (fun acc e => dinsert e.1 e.2 acc) d

/-- The keys of an association list, in order. -/
def dkeys {β : Type} (d : List (String × β)) : List String :=
  d.map Prod.fst

/-- Well-formedness of a modelled dict: no duplicate keys (always true of a
Python dict). -/
def NodupKeys {β : Type} (d : List (String × β)) : Prop :=
  (dkeys d).Nodup

/-! ### Model of NumPy float values -/

/-- A grid value: NaN or an exact number.  The source only tests values with
`np.isnan` and exact `==`. -/
inductive Val where
  | nan : Val
  | num : ℚ → Val
deriving DecidableEq

/-- `np.isnan` on one value. -/
def Val.isNan : Val → Bool
  | .nan => true
  | .num _ => false

/-- IEEE-style `==` on values: NaN is unequal to everything (itself included);
numbers compare exactly, with no tolerance. -/
def valEq : Val → Val → Bool
  | .nan, _ => false
  | _, .nan => false
  | .num a, .num b => a = b

/-- Python `round` to an integer: round half to even. -/
def roundHalfEven (q : ℚ) : ℤ :=
  let f := ⌊q⌋
  let r := q - f
  if r < 1/2 then f
  else if 1/2 < r then f + 1
  else if f % 2 = 0 then f else f + 1

/-- Python `round(x, 2)` on exact rationals. -/
def roundTo2 (q : ℚ) : ℚ :=
  (roundHalfEven (q * 100) : ℚ) / 100

/-! ### Data model (§3 of the design) -/

/-- One per-(variable, date) record, as built at lines 59–63 of the source. -/
structure DayStats where
  missing_count : Nat
  total_points : Nat
  missing_percentage : ℚ
deriving DecidableEq

/-- One `daily_summary` record, as initialized at lines 120–124 of the source.
`variables_affected` models the Python `set` (see module comment). -/
structure DaySummary where
  total_missing : Nat
  variables_affected : List String
  max_percentage : ℚ
deriving DecidableEq

/-- Output of analyzing one file (`variable`/`filename`/`stats` dict at lines
65–69; the `variable` key is named `var_name` here because `variable` is a
Lean keyword). -/
structure FileResult where
  var_name : String
  filename : String
  stats : List (String × DayStats)
deriving DecidableEq

/-- The aggregate catalog.  The `metadata.created` timestamp and
`metadata.base_path` are environment values with no algorithmic content and
are not modelled.  The source's `catalog["variables"]` field is called `vars`
here (`variables` is a Lean keyword). -/
structure Catalog where
  variables_processed : List String
  vars : List (String × List (String × DayStats))
  daily_summary : List (String × DaySummary)
deriving DecidableEq

/-- The catalog as created at run start (lines 80–88). -/
def emptyCatalog : Catalog := ⟨[], [], []⟩

/-! ### FileStatsExtractor (`analyze_netcdf_file`, lines 11–73) -/

/-- One variable of an opened dataset: its attribute dict, its array shape and
its row-major flattened values. -/
structure DSVar where
  attrs : List (String × Val)
  shape : List Nat
  flat : List Val
deriving DecidableEq

/-- An opened dataset: its variables in natural iteration order, and the time
coordinate already rendered to `YYYY-MM-DD` date strings (the
`pd.Timestamp(...).strftime` conversion is an external collaborator). -/
structure Dataset where
  vars : List (String × DSVar)
  times : List String
deriving DecidableEq

/-- The fixed denylist of coordinate/bookkeeping names (lines 21–22). -/
def exclude_vars : List String :=
  ["time", "lat", "lon", "x", "y", "Lambert_Conformal", "time_bnds", "nbnds"]

/-- `main_vars = [v for v in ds.variables if v not in exclude_vars]`
(line 23), keeping each name paired with its variable. -/
def main_vars (ds : Dataset) : List (String × DSVar) :=
  ds.vars.filter (fun p => decide (p.1 ∉ exclude_vars))

/-- Fill-value resolution (lines 33–37): prefer `_FillValue`, else
`missing_value`, else none. -/
def resolveFill (dv : DSVar) : Option Val :=
  match dlookup "_FillValue" dv.attrs with
  | some f => some f
  | none => dlookup "missing_value" dv.attrs

/-- Whether one point counts as missing (lines 48–50): it is NaN, or (when a
fill value is configured) it equals the fill value. -/
def missingPred (fill_value : Option Val) (v : Val) : Bool :=
  v.isNan || (match fill_value with
              | some f => valEq v f
              | none => false)

/-- The missingness mask of one time slice (lines 48–50):
`np.isnan(time_slice)`, or-ed elementwise with `time_slice == fill_value`
when a fill value is configured. -/
def is_missing (time_slice : List Val) (fill_value : Option Val) : List Bool :=
  time_slice.map (missingPred fill_value)

/-- The per-day statistics loop (lines 40–63).  Only rank-3 arrays
(`time × y × x`) are summarized; any other rank leaves `daily_stats` empty.
`total_points = time_slice.size = y*x`.  `times.getD time_idx ""` models the
time-coordinate lookup (in every well-formed dataset the time coordinate has
length `t`, so the default is never consulted). -/
def extractStats (dv : DSVar) (times : List String) : List (String × DayStats) :=
  match dv.shape with
  | [t, y, x] =>
    (List.range t).foldl (fun acc time_idx =>
      let time_slice := (dv.flat.drop (time_idx * (y * x))).take (y * x)
      let missing_count := (is_missing time_slice (resolveFill dv)).count true
      let total_points := y * x
      if 0 < missing_count then
        dinsert (times.getD time_idx "")
          ⟨missing_count, total_points,
           roundTo2 ((missing_count : ℚ) / (total_points : ℚ) * 100)⟩ acc
      else acc) []
  | _ => []

/-- `analyze_netcdf_file`.  `opened = none` models any exception while opening
or reading the file: the `try/except` at lines 15 and 71–73 catches it and
returns `None`.  `parent_name` is the containing folder's name (line 17),
`file_name` the file's own name. -/
def analyze_netcdf_file (parent_name file_name : String)
    (opened : Option Dataset) : Option FileResult :=
  match opened with
  | none => none
  | some ds =>
    match main_vars ds with
    | [] => none
    | mv :: _ => some ⟨parent_name, file_name, extractStats mv.2 ds.times⟩

/-! ### CatalogAggregator (`create_daily_catalog`, lines 76–140) -/

/-- Python `set.add` on the modelled set: append if absent. -/
def pyAdd (x : String) (s : List String) : List String :=
  if x ∈ s then s else s ++ [x]

/-- The default summary record created when a date is first seen
(lines 119–124): `total_missing = 0`, empty set, `max_percentage = 0`. -/
def freshSummary : DaySummary := ⟨0, [], 0⟩

/-- One iteration of the `for date, stats in daily_stats.items()` loop
(lines 118–132) on the `daily_summary` dict alone. -/
def updateSummary1 (v : String) (e : String × DayStats)
    (s : List (String × DaySummary)) : List (String × DaySummary) :=
  let cur := (dlookup e.1 s).getD freshSummary
  dinsert e.1
    ⟨cur.total_missing + e.2.missing_count,
     pyAdd v cur.variables_affected,
     max cur.max_percentage e.2.missing_percentage⟩ s

/-- Effect of folding one (possibly null) result on `catalog["variables"]`
(lines 108–115).  In the source `catalog["variables"][var_name]` always
exists because the driver initializes it for each group before any fold
(line 99); merging into a missing entry is modelled as creating it. -/
def foldVars (V : List (String × List (String × DayStats)))
    (r : Option FileResult) : List (String × List (String × DayStats)) :=
  match r with
  | none => V
  | some res =>
    dinsert res.var_name (dupdate ((dlookup res.var_name V).getD []) res.stats) V

/-- Effect of folding one (possibly null) result on `daily_summary`
(lines 108–132). -/
def foldSummary (s : List (String × DaySummary))
    (r : Option FileResult) : List (String × DaySummary) :=
  match r with
  | none => s
  | some res => res.stats.foldl (fun acc e => updateSummary1 res.var_name e acc) s

/-- Folding one completed result into the catalog: the body of the
`for result in results:` loop (lines 107–132).  A null result is skipped
(lines 108–109).  The two nested-field updates touch disjoint fields of the
catalog, so they are recorded componentwise. -/
def foldResult (c : Catalog) (r : Option FileResult) : Catalog :=
  ⟨c.variables_processed, foldVars c.vars r, foldSummary c.daily_summary r⟩

/-- Folding a whole completion-ordered list of results, starting from a given
catalog state. -/
def aggregate (c : Catalog) (rs : List (Option FileResult)) : Catalog :=
  rs.foldl foldResult c

/-- Python `list(s)` on the modelled set: the set's elements in its iteration
order (insertion order in this model).  No sorting is applied — the source
(lines 134–138) calls `list(...)` only. -/
def pySetToList (s : List String) : List String :=
  s.map id

/-- The finalization loop (lines 134–138): convert every `variables_affected`
set into a list for JSON serialization. -/
def convertSetsToLists (c : Catalog) : Catalog :=
  ⟨c.variables_processed, c.vars,
   c.daily_summary.map (fun p =>
     (p.1, ⟨p.2.total_missing, pySetToList p.2.variables_affected,
            p.2.max_percentage⟩))⟩

/-- The fixed list of variable-group folders (line 91). -/
def var_folders : List String :=
  ["air", "hgt", "omega", "shum", "tke", "uwnd", "vwnd"]

/-- Processing one variable-group folder (lines 92–132).  `dir = none` models
a folder absent on disk (skipped, lines 93–95); `dir = some rs` gives the
analysis results of the folder's files in completion order.  When the folder
exists the group is appended to `variables_processed` and its entry in
`catalog["variables"]` is set to the empty dict (lines 98–99) before any
result is folded. -/
def processGroup (c : Catalog) (g : String)
    (dir : Option (List (Option FileResult))) : Catalog :=
  match dir with
  | none => c
  | some rs =>
    aggregate ⟨c.variables_processed ++ [g], dinsert g [] c.vars, c.daily_summary⟩ rs

/-- `create_daily_catalog`: process every group folder in order, then convert
the affected-variable sets to lists.  `dirs` abstracts the filesystem: for
each group name, whether its folder exists and what its files' analysis
results are. -/
def create_daily_catalog (dirs : String → Option (List (Option FileResult))) : Catalog :=
  convertSetsToLists (var_folders.foldl (fun c g => processGroup c g (dirs g)) emptyCatalog)

/-! ### Key sets, well-formedness and catalog equivalence

`CatalogEquiv` is equality of catalogs in the sense of Python's `==`:
dicts compare by key set and per-key value (insertion order is ignored by
Python's `dict.__eq__`), and the `variables_affected` sets compare by
membership.  It is exactly what "identical Catalog" means for the source's
data structures before the sets are converted to lists. -/

/-- The (variable, date) keys a result writes into `catalog["variables"]`. -/
def resKeys : Option FileResult → List (String × String)
  | none => []
  | some res => res.stats.map (fun e => (res.var_name, e.1))

/-- Two results touch no common (variable, date) key. -/
def DisjResults (a b : Option FileResult) : Prop :=
  ∀ k, k ∈ resKeys a → k ∉ resKeys b

/-- No (variable, date) key collision between any two distinct results of the
list — the side condition the design's §4.3 carves out as last-write-wins. -/
def PairwiseDisjoint (rs : List (Option FileResult)) : Prop :=
  rs.Pairwise DisjResults

/-- A result is well-formed when its per-date stats dict has no duplicate
keys (automatic for an actual Python dict). -/
def WFResult : Option FileResult → Prop
  | none => True
  | some res => NodupKeys res.stats

/-- All results of a list are well-formed. -/
def WFResults (rs : List (Option FileResult)) : Prop := ∀ r ∈ rs, WFResult r

/-- A starting catalog is clean when its summary is empty and every
pre-initialized per-variable dict is empty — true of the empty catalog and of
any catalog the driver has only pre-initialized (line 99). -/
def CleanStart (c : Catalog) : Prop :=
  c.daily_summary = [] ∧ (∀ e ∈ c.vars, e.2 = ([] : List (String × DayStats))) ∧
    NodupKeys c.vars

/-- Extensional equality of the nested `variables` dicts. -/
def VarsEquiv (V1 V2 : List (String × List (String × DayStats))) : Prop :=
  (∀ v, (dlookup v V1).isSome = (dlookup v V2).isSome) ∧
  (∀ v d, dlookup d ((dlookup v V1).getD []) = dlookup d ((dlookup v V2).getD []))

/-- Equality of two optional summary records, the affected sets compared by
membership. -/
def DSumEquiv (o1 o2 : Option DaySummary) : Prop :=
  o1.isSome = o2.isSome ∧
  (o1.getD freshSummary).total_missing = (o2.getD freshSummary).total_missing ∧
  (o1.getD freshSummary).max_percentage = (o2.getD freshSummary).max_percentage ∧
  (∀ v, v ∈ (o1.getD freshSummary).variables_affected ↔
        v ∈ (o2.getD freshSummary).variables_affected)

/-- Extensional equality of two `daily_summary` dicts. -/
def SummEquiv (S1 S2 : List (String × DaySummary)) : Prop :=
  ∀ d, DSumEquiv (dlookup d S1) (dlookup d S2)

/-- Equality of catalogs in the sense of Python `==` (see section comment). -/
def CatalogEquiv (c1 c2 : Catalog) : Prop :=
  c1.variables_processed = c2.variables_processed ∧
  VarsEquiv c1.vars c2.vars ∧ SummEquiv c1.daily_summary c2.daily_summary

/-! ### Denotations used to state the daily-summary invariant -/

/-- The missing count recorded under date `d` in one per-variable dict
(0 when absent). -/
def mcAt (d : String) (m : List (String × DayStats)) : Nat :=
  match dlookup d m with
  | some s => s.missing_count
  | none => 0

/-- Sum of `missing_count` over all (variable, `d`) DayStats entries of the
whole catalog's `variables` mapping. -/
def varsTotal (d : String) (V : List (String × List (String × DayStats))) : Nat :=
  (V.map (fun e => mcAt d e.2)).sum

/-- `daily_summary[d].total_missing` (0 when the date is absent). -/
def totalAt (d : String) (S : List (String × DaySummary)) : Nat :=
  ((dlookup d S).getD freshSummary).total_missing

/-- `daily_summary[d].variables_affected` (empty when the date is absent). -/
def affectedAt (d : String) (S : List (String × DaySummary)) : List String :=
  ((dlookup d S).getD freshSummary).variables_affected

/-- `daily_summary[d].max_percentage` (0 when the date is absent). -/
def maxAt (d : String) (S : List (String × DaySummary)) : ℚ :=
  ((dlookup d S).getD freshSummary).max_percentage

/-- The catalog's `variables` has a DayStats entry at (variable `v`, date `d`). -/
def hasKey (V : List (String × List (String × DayStats))) (v d : String) : Prop :=
  (dlookup d ((dlookup v V).getD [])).isSome = true

/-- Total missing count one result reports for date `d`. -/
def resContrib (r : Option FileResult) (d : String) : Nat :=
  match r with
  | none => 0
  | some res =>
    ((res.stats.filter (fun e => decide (e.1 = d))).map
      (fun e => e.2.missing_count)).sum

/-- The missing percentages one result reports for date `d`. -/
def resPcts (r : Option FileResult) (d : String) : List ℚ :=
  match r with
  | none => []
  | some res =>
    (res.stats.filter (fun e => decide (e.1 = d))).map
      (fun e => e.2.missing_percentage)

/-- All missing percentages reported for date `d` across a result list. -/
def allPcts (rs : List (Option FileResult)) (d : String) : List ℚ :=
  (rs.map (fun r => resPcts r d)).flatten

/-- The missing percentages stored for date `d` across the catalog's
`variables` mapping. -/
def catPcts (d : String) (V : List (String × List (String × DayStats))) : List ℚ :=
  V.filterMap (fun e => (dlookup d e.2).map (fun s => s.missing_percentage))

/-! ### Concrete data used in scenario proofs, counterexamples and witnesses -/

/-- The §8 scenario file: 3 days of a 2×2 grid; day 1 all present, day 2 one
NaN, day 3 all equal to the configured fill value −999. -/
def dvEx : DSVar :=
  ⟨[("_FillValue", Val.num (-999))], [3, 2, 2],
    [Val.num 1, Val.num 2, Val.num 3, Val.num 4,
     Val.nan, Val.num 1, Val.num 2, Val.num 3,
     Val.num (-999), Val.num (-999), Val.num (-999), Val.num (-999)]⟩

/-- The scenario file's time coordinate. -/
def timesEx : List String := ["1979-01-01", "1979-01-02", "1979-01-03"]

/-- The scenario dataset: a `time` coordinate variable plus the data variable. -/
def dsEx : Dataset :=
  ⟨[("time", ⟨[], [3], []⟩), ("airvar", dvEx)], timesEx⟩

/-- A result for variable `air`, 1 of 4 points missing on 2020-01-01. -/
def rA : FileResult := ⟨"air", "f1.nc", [("2020-01-01", ⟨1, 4, 25⟩)]⟩

/-- A second `air` result colliding with `rA` on (air, 2020-01-01). -/
def rB : FileResult := ⟨"air", "f2.nc", [("2020-01-01", ⟨2, 4, 50⟩)]⟩

/-- A `vwnd` result for the same date as `rA` (no key collision). -/
def rV : FileResult := ⟨"vwnd", "g1.nc", [("2020-01-01", ⟨1, 4, 25⟩)]⟩

/-! ### Association-list lemmas -/

theorem oget_assoc {β : Type} (a b c : Option β) :
    oget (oget a b) c = oget a (oget b c) := by
  cases a <;> cases b <;> rfl

theorem oget_none_left {β : Type} (b : Option β) : oget none b = b := rfl

theorem oget_some_left {β : Type} (v : β) (b : Option β) :
    oget (some v) b = some v := rfl

theorem dlookup_dinsert {β : Type} (k k' : String) (v : β) (d : List (String × β)) :
    dlookup k' (dinsert k v d) = if k' = k then some v else dlookup k' d := by
  induction d with
  | nil => simp [dinsert, dlookup]
  | cons e t ih =>
    by_cases h : e.1 = k
    · simp only [dinsert, h, if_pos rfl]
      by_cases h' : k' = k
      · simp [dlookup, h', h]
      · simp [dlookup, h', h ▸ h']
    · simp only [dinsert, if_neg h]
      by_cases h' : k' = e.1
      · have : ¬ k' = k := fun hk => h (hk ▸ h'.symm ▸ rfl)
        simp [dlookup, h', this, h]
      · simp [dlookup, h', ih]

theorem dlookup_append {β : Type} (k : String) (d₁ d₂ : List (String × β)) :
    dlookup k (d₁ ++ d₂) = oget (dlookup k d₁) (dlookup k d₂) := by
  induction d₁ with
  | nil => simp [dlookup, oget]
  | cons e t ih =>
    by_cases h : k = e.1
    · simp [dlookup, h, oget]
    · simp [dlookup, h, ih]

theorem dlookup_dupdate {β : Type} (k : String) (d o : List (String × β)) :
    dlookup k (dupdate d o) = oget (dlookup k o.reverse) (dlookup k d) := by
  induction o generalizing d with
  | nil => simp [dupdate, dlookup, oget]
  | cons e t ih =>
    show dlookup k (dupdate (dinsert e.1 e.2 d) t) = _
    rw [ih, List.reverse_cons, dlookup_append, oget_assoc]
    congr 1
    rw [dlookup_dinsert]
    by_cases h : k = e.1 <;> simp [dlookup, h, oget]

theorem dlookup_eq_none {β : Type} (k : String) (d : List (String × β)) :
    dlookup k d = none ↔ k ∉ dkeys d := by
  induction d with
  | nil => simp [dlookup, dkeys]
  | cons e t ih =>
    by_cases h : k = e.1
    · simp [dlookup, h, dkeys]
    · simp [dlookup, h, dkeys, ih]

theorem dlookup_mem {β : Type} {k : String} {v : β} {d : List (String × β)}
    (h : dlookup k d = some v) : (k, v) ∈ d := by
  induction d with
  | nil => simp [dlookup] at h
  | cons e t ih =>
    by_cases hk : k = e.1
    · simp only [dlookup, if_pos hk] at h
      obtain ⟨e1, e2⟩ := e
      injection h with h2
      subst h2
      subst hk
      exact List.mem_cons_self _ _
    · simp only [dlookup, if_neg hk] at h
      exact List.mem_cons_of_mem _ (ih h)

theorem dlookup_isSome {β : Type} (k : String) (d : List (String × β)) :
    (dlookup k d).isSome = true ↔ k ∈ dkeys d := by
  constructor
  · intro h
    cases hv : dlookup k d with
    | none => rw [hv] at h; simp at h
    | some v => exact List.mem_map_of_mem Prod.fst (dlookup_mem hv)
  · intro h
    cases hv : dlookup k d with
    | none => exact absurd h ((dlookup_eq_none k d).mp hv)
    | some v => rfl

theorem mem_dlookup {β : Type} {k : String} {v : β} {d : List (String × β)}
    (hd : NodupKeys d) (h : (k, v) ∈ d) : dlookup k d = some v := by
  induction d with
  | nil => simp at h
  | cons e t ih =>
    rcases List.mem_cons.mp h with he | ht
    · cases he
      simp [dlookup]
    · have hk : ¬ k = e.1 := by
        intro hk
        have : e.1 ∈ dkeys t := by
          rw [← hk]
          exact List.mem_map_of_mem Prod.fst ht
        exact (List.nodup_cons.mp hd).1 this
      simp only [dlookup, if_neg hk]
      exact ih (List.nodup_cons.mp hd).2 ht

theorem nodupKeys_reverse {β : Type} {d : List (String × β)} (hd : NodupKeys d) :
    NodupKeys d.reverse := by
  unfold NodupKeys dkeys at *
  rw [List.map_reverse]
  exact List.nodup_reverse.mpr hd

theorem dlookup_reverse {β : Type} {d : List (String × β)} (k : String)
    (hd : NodupKeys d) : dlookup k d.reverse = dlookup k d := by
  cases h : dlookup k d with
  | none =>
    rw [dlookup_eq_none] at h ⊢
    unfold dkeys at *
    rw [List.map_reverse]
    simpa using h
  | some v =>
    exact mem_dlookup (nodupKeys_reverse hd) (List.mem_reverse.mpr (dlookup_mem h))

theorem mem_dinsert {β : Type} {e : String × β} {k : String} {v : β}
    {d : List (String × β)} (h : e ∈ dinsert k v d) : e = (k, v) ∨ e ∈ d := by
  induction d with
  | nil => simpa [dinsert] using h
  | cons e' t ih =>
    by_cases hk : e'.1 = k
    · simp only [dinsert, if_pos hk] at h
      rcases List.mem_cons.mp h with h | h
      · exact Or.inl h
      · exact Or.inr (List.mem_cons_of_mem _ h)
    · simp only [dinsert, if_neg hk] at h
      rcases List.mem_cons.mp h with h | h
      · exact Or.inr (h ▸ List.mem_cons_self _ _)
      · rcases ih h with h | h
        · exact Or.inl h
        · exact Or.inr (List.mem_cons_of_mem _ h)

theorem dkeys_dinsert_mem {β : Type} {k : String} {d : List (String × β)} (v : β)
    (h : k ∈ dkeys d) : dkeys (dinsert k v d) = dkeys d := by
  induction d with
  | nil => simp [dkeys] at h
  | cons e t ih =>
    by_cases hk : e.1 = k
    · simp [dinsert, hk, dkeys]
    · have ht : k ∈ dkeys t := by
        rcases List.mem_cons.mp h with h | h
        · exact absurd h.symm hk
        · exact h
      simp only [dinsert, if_neg hk]
      show e.1 :: dkeys (dinsert k v t) = e.1 :: dkeys t
      rw [ih ht]

theorem dkeys_dinsert_not_mem {β : Type} {k : String} {d : List (String × β)} (v : β)
    (h : k ∉ dkeys d) : dkeys (dinsert k v d) = dkeys d ++ [k] := by
  induction d with
  | nil => simp [dinsert, dkeys]
  | cons e t ih =>
    have hk : ¬ e.1 = k := by
      intro hk
      exact h (hk ▸ List.mem_cons_self _ _)
    have ht : k ∉ dkeys t := fun hm => h (List.mem_cons_of_mem _ hm)
    simp only [dinsert, if_neg hk]
    show e.1 :: dkeys (dinsert k v t) = (e.1 :: dkeys t) ++ [k]
    rw [ih ht]
    rfl

theorem nodupKeys_dinsert {β : Type} {d : List (String × β)} (k : String) (v : β)
    (hd : NodupKeys d) : NodupKeys (dinsert k v d) := by
  by_cases h : k ∈ dkeys d
  · unfold NodupKeys
    rw [dkeys_dinsert_mem v h]
    exact hd
  · unfold NodupKeys
    rw [dkeys_dinsert_not_mem v h]
    rw [List.nodup_append]
    refine ⟨hd, List.nodup_singleton _, ?_⟩
    intro a ha hx
    rw [List.mem_singleton] at hx
    subst hx
    exact h ha

theorem mem_pyAdd (v x : String) (s : List String) :
    v ∈ pyAdd x s ↔ v = x ∨ v ∈ s := by
  unfold pyAdd
  by_cases h : x ∈ s
  · simp only [if_pos h]
    constructor
    · exact Or.inr
    · rintro (rfl | hv)
      · exact h
      · exact hv
  · simp only [if_neg h, List.mem_append, List.mem_singleton]
    tauto

theorem nodup_pyAdd (x : String) {s : List String} (hs : s.Nodup) :
    (pyAdd x s).Nodup := by
  unfold pyAdd
  by_cases h : x ∈ s
  · simpa [h] using hs
  · rw [if_neg h, List.nodup_append]
    refine ⟨hs, List.nodup_singleton _, ?_⟩
    intro a ha hx
    rw [List.mem_singleton] at hx
    subst hx
    exact h ha

theorem filter_key_of_dlookup {β : Type} {k : String} {v : β} {d : List (String × β)}
    (hd : NodupKeys d) (h : dlookup k d = some v) :
    d.filter (fun e => decide (e.1 = k)) = [(k, v)] := by
  induction d with
  | nil => simp [dlookup] at h
  | cons e t ih =>
    by_cases hk : k = e.1
    · simp only [dlookup, if_pos hk] at h
      have hkt : e.1 ∉ dkeys t := (List.nodup_cons.mp hd).1
      have ht : t.filter (fun e' => decide (e'.1 = k)) = [] := by
        rw [List.filter_eq_nil_iff]
        intro a ha hka
        exact hkt (hk ▸ (of_decide_eq_true hka) ▸ List.mem_map_of_mem Prod.fst ha)
      obtain ⟨e1, e2⟩ := e
      injection h with h2
      subst h2
      subst hk
      simp [List.filter_cons, ht]
    · simp only [dlookup, if_neg hk] at h
      have he : ¬ (e.1 = k) := fun h' => hk h'.symm
      rw [List.filter_cons, if_neg (by simpa using he)]
      exact ih (List.nodup_cons.mp hd).2 h

theorem filter_key_of_not_mem {β : Type} {k : String} {d : List (String × β)}
    (h : k ∉ dkeys d) : d.filter (fun e => decide (e.1 = k)) = [] := by
  rw [List.filter_eq_nil_iff]
  intro a ha hka
  exact h ((of_decide_eq_true hka) ▸ List.mem_map_of_mem Prod.fst ha)

/-! ### Extractor lemmas and claims -/

theorem mask_elem_iff (v : Val) (f : Option Val) :
    missingPred f v = true ↔
      (v.isNan = true ∨ ∃ fv, f = some fv ∧ valEq v fv = true) := by
  cases f <;> simp [missingPred]

/-- Claim C5: `is_missing` returns a mask of the same shape, true exactly at
positions that are NaN or (when a fill value is configured) exactly equal to
the fill value; with no fill value only NaN positions are flagged. -/
theorem is_missing_correct (S : List Val) (f : Option Val) (i : Nat)
    (h : i < S.length) :
    (is_missing S f).length = S.length ∧
    ((is_missing S f).getD i false = true ↔
      ((S.getD i Val.nan).isNan = true ∨
        ∃ fv, f = some fv ∧ valEq (S.getD i Val.nan) fv = true)) ∧
    ((is_missing S none).getD i false = true ↔ (S.getD i Val.nan).isNan = true) := by
  refine ⟨List.length_map _ _, ?_, ?_⟩
  · induction S generalizing i with
    | nil => simp at h
    | cons v t ih =>
      cases i with
      | zero => simpa [is_missing, List.getD] using mask_elem_iff v f
      | succ j =>
        have hj : j < t.length := Nat.lt_of_succ_lt_succ h
        simpa [is_missing, List.getD] using ih j hj
  · induction S generalizing i with
    | nil => simp at h
    | cons v t ih =>
      cases i with
      | zero => simpa [is_missing, List.getD] using mask_elem_iff v none
      | succ j =>
        have hj : j < t.length := Nat.lt_of_succ_lt_succ h
        simpa [is_missing, List.getD] using ih j hj

theorem is_missing_correct_witness :
    ((is_missing [Val.nan, Val.num 5, Val.num 3] (some (Val.num 5))).length = 3 ∧
      ((is_missing [Val.nan, Val.num 5, Val.num 3] (some (Val.num 5))).getD 1 false = true ↔
        (([Val.nan, Val.num 5, Val.num 3].getD 1 Val.nan).isNan = true ∨
          ∃ fv, (some (Val.num 5) : Option Val) = some fv ∧
            valEq ([Val.nan, Val.num 5, Val.num 3].getD 1 Val.nan) fv = true)) ∧
      ((is_missing [Val.nan, Val.num 5, Val.num 3] none).getD 1 false = true ↔
        (([Val.nan, Val.num 5, Val.num 3].getD 1 Val.nan).isNan = true))) :=
  is_missing_correct [Val.nan, Val.num 5, Val.num 3] (some (Val.num 5)) 1 (by decide)

theorem foldl_step_prop (P : DayStats → Prop)
    (step : List (String × DayStats) → Nat → List (String × DayStats))
    (hstep : ∀ acc i, (∀ e ∈ acc, P e.2) → ∀ e ∈ step acc i, P e.2)
    (l : List Nat) (acc : List (String × DayStats))
    (hacc : ∀ e ∈ acc, P e.2) : ∀ e ∈ l.foldl step acc, P e.2 := by
  induction l generalizing acc with
  | nil => exact hacc
  | cons i t ih => exact ih _ (hstep acc i hacc)

theorem extractStats_prop (dv : DSVar) (times : List String) (d : String)
    (s : DayStats) (hmem : (d, s) ∈ extractStats dv times) :
    0 < s.missing_count ∧
      s.missing_percentage =
        roundTo2 ((s.missing_count : ℚ) / (s.total_points : ℚ) * 100) := by
  unfold extractStats at hmem
  split at hmem
  · refine foldl_step_prop
      (fun st => 0 < st.missing_count ∧
        st.missing_percentage =
          roundTo2 ((st.missing_count : ℚ) / (st.total_points : ℚ) * 100))
      _ ?_ _ [] (by simp) (d, s) hmem
    intro acc i hacc e he
    dsimp only at he
    split at he
    · rcases mem_dinsert he with rfl | he'
      · refine ⟨by assumption, rfl⟩
      · exact hacc _ he'
    · exact hacc _ he
  · simp at hmem

theorem extractStats_scenario :
    extractStats dvEx timesEx =
      [("1979-01-02", ⟨1, 4, 25⟩), ("1979-01-03", ⟨4, 4, 100⟩)] := by
  have h1 : roundTo2 (25 : ℚ) = 25 := by norm_num [roundTo2, roundHalfEven]
  have h4 : roundTo2 (100 : ℚ) = 100 := by norm_num [roundTo2, roundHalfEven]
  simp only [extractStats, dvEx, timesEx, List.range_succ, List.range_zero,
    List.foldl_append, List.foldl_cons, List.foldl_nil, is_missing, missingPred,
    resolveFill, dlookup, dinsert]
  norm_num [valEq, Val.isNan, missingPred, List.count, List.countP, dinsert]
  have hc1 : List.countP.go (fun x => x) [true, false, false, false] 0 = 1 := rfl
  have hc4 : List.countP.go (fun x => x) [true, true, true, true] 0 = 4 := rfl
  have hc0 : List.countP.go (fun x => x) [false, false, false, false] 0 = 0 := rfl
  rw [hc1, hc4, hc0]
  norm_num
  rw [h1, h4]
  decide

/-- Claim C6: a DayStats entry is recorded only for days with
`missing_count > 0`, with `missing_percentage = missing_count/total_points ×
100` rounded to 2 decimals; on the 3-day 2×2 scenario (day 1 full, day 2 one
NaN of 4, day 3 all four equal to the configured fill −999) the result has no
day-1 entry, day 2 `{1, 4, 25.0}` and day 3 `{4, 4, 100.0}`. -/
theorem daystats_recording (dv : DSVar) (times : List String) (d : String)
    (s : DayStats) (hmem : (d, s) ∈ extractStats dv times) :
    (0 < s.missing_count ∧
      s.missing_percentage =
        roundTo2 ((s.missing_count : ℚ) / (s.total_points : ℚ) * 100)) ∧
    analyze_netcdf_file "air" "f.nc" (some dsEx) =
      some ⟨"air", "f.nc",
        [("1979-01-02", ⟨1, 4, 25⟩), ("1979-01-03", ⟨4, 4, 100⟩)]⟩ := by
  refine ⟨extractStats_prop dv times d s hmem, ?_⟩
  have hmv : main_vars dsEx = [("airvar", dvEx)] := by decide
  have hts : dsEx.times = timesEx := rfl
  simp only [analyze_netcdf_file, hmv, hts]
  rw [extractStats_scenario]

theorem daystats_recording_witness :
    (0 < (⟨1, 4, 25⟩ : DayStats).missing_count ∧
      (⟨1, 4, 25⟩ : DayStats).missing_percentage =
        roundTo2 (((⟨1, 4, 25⟩ : DayStats).missing_count : ℚ) /
          ((⟨1, 4, 25⟩ : DayStats).total_points : ℚ) * 100)) ∧
    analyze_netcdf_file "air" "f.nc" (some dsEx) =
      some ⟨"air", "f.nc",
        [("1979-01-02", ⟨1, 4, 25⟩), ("1979-01-03", ⟨4, 4, 100⟩)]⟩ :=
  daystats_recording dvEx timesEx "1979-01-02" ⟨1, 4, 25⟩
    (by rw [extractStats_scenario]; decide)

theorem head_filter_eq_find {α : Type} (p : α → Bool) (l : List α) :
    (l.filter p).head? = l.find? p := by
  induction l with
  | nil => rfl
  | cons a t ih =>
    by_cases h : p a
    · simp [List.filter_cons, List.find?, h]
    · simp only [List.filter_cons, List.find?]
      rw [if_neg (by simpa using h)]
      rw [ih]
      cases hpa : p a
      · rfl
      · exact absurd hpa (by simpa using h)

/-- Claim C7: `analyze_netcdf_file` never raises past its boundary: an open
or parse failure gives a null result; when every variable name present is on
the fixed denylist it gives a null result; otherwise the first remaining name
in the source's natural iteration order is selected as the primary variable
and a non-null result is produced from it. -/
theorem extract_error_boundary :
    (∀ p n, analyze_netcdf_file p n none = none) ∧
    (∀ p n (ds : Dataset), (∀ e ∈ ds.vars, e.1 ∈ exclude_vars) →
      analyze_netcdf_file p n (some ds) = none) ∧
    (∀ ds : Dataset,
      (main_vars ds).head? = ds.vars.find? (fun e => decide (e.1 ∉ exclude_vars))) ∧
    (∀ p n (ds : Dataset) mv rest, main_vars ds = mv :: rest →
      analyze_netcdf_file p n (some ds) =
        some ⟨p, n, extractStats mv.2 ds.times⟩) := by
  refine ⟨fun p n => rfl, ?_, ?_, ?_⟩
  · intro p n ds hall
    have hmv : main_vars ds = [] := by
      rw [main_vars, List.filter_eq_nil_iff]
      intro e he
      simpa using hall e he
    simp only [analyze_netcdf_file, hmv]
  · intro ds
    exact head_filter_eq_find _ _
  · intro p n ds mv rest hmv
    simp only [analyze_netcdf_file, hmv]

theorem extract_error_boundary_witness :
    analyze_netcdf_file "air" "f.nc" (some dsEx) =
      some ⟨"air", "f.nc", extractStats dvEx dsEx.times⟩ :=
  extract_error_boundary.2.2.2 "air" "f.nc" dsEx ("airvar", dvEx) [] (by decide)

/-- Claim C8: the fill-value sentinel is resolved from the primary variable's
attributes preferring `_FillValue`, else `missing_value`, else none. -/
theorem fill_value_precedence (dv : DSVar) :
    (∀ f, dlookup "_FillValue" dv.attrs = some f → resolveFill dv = some f) ∧
    (dlookup "_FillValue" dv.attrs = none →
      resolveFill dv = dlookup "missing_value" dv.attrs) := by
  constructor
  · intro f h
    unfold resolveFill
    rw [h]
  · intro h
    unfold resolveFill
    rw [h]

theorem fill_value_precedence_witness :
    resolveFill ⟨[("missing_value", Val.num (-1)), ("_FillValue", Val.num (-999))],
        [], []⟩ = some (Val.num (-999)) ∧
    resolveFill ⟨[("missing_value", Val.num (-1))], [], []⟩ =
      dlookup "missing_value" [("missing_value", Val.num (-1))] :=
  ⟨(fill_value_precedence _).1 (Val.num (-999)) (by decide),
   (fill_value_precedence ⟨[("missing_value", Val.num (-1))], [], []⟩).2 (by decide)⟩

theorem extractStats_empty_of_shape (dv : DSVar) (times : List String)
    (h : dv.shape.length ≠ 3) : extractStats dv times = [] := by
  unfold extractStats
  split
  · rename_i t y x hs
    exact absurd (by rw [hs]; rfl) h
  · rfl

/-- Claim C9: when the primary variable's array does not have exactly 3 axes,
extraction yields a non-null FileResult with an empty date-to-DayStats
mapping — an empty statistics set, not an error and not a null result. -/
theorem unsupported_shape_empty (p n : String) (ds : Dataset)
    (mv : String × DSVar) (rest : List (String × DSVar))
    (hmv : main_vars ds = mv :: rest) (hshape : mv.2.shape.length ≠ 3) :
    analyze_netcdf_file p n (some ds) = some ⟨p, n, []⟩ := by
  simp only [analyze_netcdf_file, hmv]
  rw [extractStats_empty_of_shape mv.2 ds.times hshape]

theorem unsupported_shape_empty_witness :
    analyze_netcdf_file "air" "g.nc"
        (some ⟨[("v2", ⟨[], [2, 2], [Val.nan, Val.nan, Val.nan, Val.nan]⟩)],
               ["1979-01-01"]⟩) =
      some ⟨"air", "g.nc", []⟩ :=
  unsupported_shape_empty "air" "g.nc" _
    ("v2", ⟨[], [2, 2], [Val.nan, Val.nan, Val.nan, Val.nan]⟩) [] (by decide)
    (by decide)

/-! ### Aggregator: null folds and re-folds (claim C3) -/

/-- Claim C3 (amended): folding a null result is a no-op — the catalog after
the fold equals the catalog before it.  (Folding the same non-null result a
second time is NOT a no-op in general; see the counterexample.) -/
theorem fold_null_noop (c : Catalog) : foldResult c none = c := rfl

theorem fold_null_noop_witness : foldResult emptyCatalog none = emptyCatalog :=
  fold_null_noop emptyCatalog

/-- Counterexample to claim C3 as stated: folding the same FileResult a
second time changes the catalog (its missing count is added to
`daily_summary` totals again: `total_missing` becomes 2 instead of 1). -/
theorem fold_not_idempotent_cex :
    foldResult (foldResult emptyCatalog (some rA)) (some rA) ≠
      foldResult emptyCatalog (some rA) := by decide

/-! ### Finalization (claim C4) -/

theorem dlookup_map_value {β γ : Type} (f : β → γ) (k : String)
    (l : List (String × β)) :
    dlookup k (l.map (fun p => (p.1, f p.2))) = (dlookup k l).map f := by
  induction l with
  | nil => rfl
  | cons e t ih =>
    by_cases h : k = e.1 <;> simp [dlookup, h, ih]

theorem update1_prop (P : DaySummary → Prop)
    (hstep : ∀ (v : String) (e : String × DayStats) (cur : DaySummary), P cur →
      P ⟨cur.total_missing + e.2.missing_count, pyAdd v cur.variables_affected,
         max cur.max_percentage e.2.missing_percentage⟩)
    (hfresh : P freshSummary)
    (v : String) (e : String × DayStats) (S : List (String × DaySummary))
    (hS : ∀ d s, dlookup d S = some s → P s) :
    ∀ d s, dlookup d (updateSummary1 v e S) = some s → P s := by
  intro d s h
  unfold updateSummary1 at h
  rw [dlookup_dinsert] at h
  by_cases hd : d = e.1
  · rw [if_pos hd] at h
    injection h with h
    subst h
    refine hstep v e _ ?_
    cases hcur : dlookup e.1 S with
    | none => simpa [hcur] using hfresh
    | some cur => simpa [hcur] using hS e.1 cur hcur
  · rw [if_neg hd] at h
    exact hS d s h

theorem foldEntries_prop (P : DaySummary → Prop)
    (hstep : ∀ (v : String) (e : String × DayStats) (cur : DaySummary), P cur →
      P ⟨cur.total_missing + e.2.missing_count, pyAdd v cur.variables_affected,
         max cur.max_percentage e.2.missing_percentage⟩)
    (hfresh : P freshSummary) (v : String) (l : List (String × DayStats)) :
    ∀ S, (∀ d s, dlookup d S = some s → P s) →
      ∀ d s, dlookup d (l.foldl (fun acc e => updateSummary1 v e acc) S) = some s → P s := by
  induction l with
  | nil => intro S hS; exact hS
  | cons e t ih =>
    intro S hS
    exact ih _ (update1_prop P hstep hfresh v e S hS)

theorem foldSummary_prop (P : DaySummary → Prop)
    (hstep : ∀ (v : String) (e : String × DayStats) (cur : DaySummary), P cur →
      P ⟨cur.total_missing + e.2.missing_count, pyAdd v cur.variables_affected,
         max cur.max_percentage e.2.missing_percentage⟩)
    (hfresh : P freshSummary) (r : Option FileResult)
    (S : List (String × DaySummary)) (hS : ∀ d s, dlookup d S = some s → P s) :
    ∀ d s, dlookup d (foldSummary S r) = some s → P s := by
  cases r with
  | none => exact hS
  | some res => exact foldEntries_prop P hstep hfresh res.var_name res.stats S hS

theorem aggregate_summary_prop (P : DaySummary → Prop)
    (hstep : ∀ (v : String) (e : String × DayStats) (cur : DaySummary), P cur →
      P ⟨cur.total_missing + e.2.missing_count, pyAdd v cur.variables_affected,
         max cur.max_percentage e.2.missing_percentage⟩)
    (hfresh : P freshSummary) (rs : List (Option FileResult)) :
    ∀ c : Catalog, (∀ d s, dlookup d c.daily_summary = some s → P s) →
      ∀ d s, dlookup d (aggregate c rs).daily_summary = some s → P s := by
  induction rs with
  | nil => intro c hc; exact hc
  | cons r t ih =>
    intro c hc
    exact ih (foldResult c r) (foldSummary_prop P hstep hfresh r c.daily_summary hc)

theorem aggregate_affected_nodup (rs : List (Option FileResult)) (d : String)
    (s : DaySummary)
    (h : dlookup d (aggregate emptyCatalog rs).daily_summary = some s) :
    s.variables_affected.Nodup :=
  aggregate_summary_prop (fun s => s.variables_affected.Nodup)
    (fun v _ cur hc => nodup_pyAdd v hc) (by simp [freshSummary]) rs emptyCatalog
    (by intro d s h; simp [emptyCatalog, dlookup] at h) d s h

/-- Counterexample to claim C4 as stated: the finalization applies no sort.
Folding a `vwnd` result before an `air` result for the same date and then
finalizing yields the affected-variables list `["vwnd", "air"]`, which is not
sorted by variable name.  (In the source the conversion is `list(set)`, whose
order is the set's hash-based iteration order — in no case a guaranteed
name-sorted order; the model realizes it as insertion order.) -/
theorem finalize_unsorted_cex :
    ¬ List.Sorted (· ≤ ·)
        (affectedAt "2020-01-01"
          (convertSetsToLists (aggregate emptyCatalog [some rV, some rA])).daily_summary) := by
  have hl : affectedAt "2020-01-01"
      (convertSetsToLists (aggregate emptyCatalog [some rV, some rA])).daily_summary
      = ["vwnd", "air"] := by decide
  rw [hl]
  intro h
  have h2 := List.rel_of_sorted_cons h "air" (by simp)
  rw [String.le_iff_toList_le] at h2
  revert h2
  decide

/-- Claim C4 (amended): after all folds, finalization converts every
`variables_affected` set into a plain duplicate-free list holding exactly the
set's members, so the persisted catalog contains no native set type; the list
is in the set's iteration order — no sort is applied, so it is not in general
sorted by variable name (see the counterexample). -/
theorem finalize_set_to_list (rs : List (Option FileResult)) (d : String)
    (s : DaySummary)
    (h : dlookup d (convertSetsToLists (aggregate emptyCatalog rs)).daily_summary = some s) :
    s.variables_affected.Nodup ∧
      ∀ v, v ∈ s.variables_affected ↔
        v ∈ affectedAt d (aggregate emptyCatalog rs).daily_summary := by
  have hmap : dlookup d (convertSetsToLists (aggregate emptyCatalog rs)).daily_summary
      = (dlookup d (aggregate emptyCatalog rs).daily_summary).map
          (fun s0 => ⟨s0.total_missing, pySetToList s0.variables_affected,
                      s0.max_percentage⟩) :=
    dlookup_map_value
      (fun s0 : DaySummary =>
        (⟨s0.total_missing, pySetToList s0.variables_affected,
          s0.max_percentage⟩ : DaySummary))
      d (aggregate emptyCatalog rs).daily_summary
  rw [hmap] at h
  cases hc : dlookup d (aggregate emptyCatalog rs).daily_summary with
  | none => rw [hc] at h; exact absurd h (by simp)
  | some s0 =>
    rw [hc] at h
    injection h with h
    subst h
    have hnodup := aggregate_affected_nodup rs d s0 hc
    constructor
    · show (pySetToList s0.variables_affected).Nodup
      unfold pySetToList
      rw [List.map_id]
      exact hnodup
    · intro v
      unfold affectedAt
      rw [hc]
      show v ∈ pySetToList s0.variables_affected ↔ v ∈ s0.variables_affected
      unfold pySetToList
      rw [List.map_id]

theorem finalize_set_to_list_witness :
    ((⟨1, ["air"], 25⟩ : DaySummary).variables_affected.Nodup) ∧
      ("air" ∈ (⟨1, ["air"], 25⟩ : DaySummary).variables_affected ↔
        "air" ∈ affectedAt "2020-01-01"
          (aggregate emptyCatalog [some rA]).daily_summary) :=
  ⟨(finalize_set_to_list [some rA] "2020-01-01" ⟨1, ["air"], 25⟩ (by decide)).1,
   (finalize_set_to_list [some rA] "2020-01-01" ⟨1, ["air"], 25⟩ (by decide)).2 "air"⟩

/-! ### Driver lemmas (claim C10) -/

theorem foldResult_vp (c : Catalog) (r : Option FileResult) :
    (foldResult c r).variables_processed = c.variables_processed := rfl

theorem aggregate_vp (rs : List (Option FileResult)) :
    ∀ c, (aggregate c rs).variables_processed = c.variables_processed := by
  induction rs with
  | nil => intro c; rfl
  | cons r t ih => intro c; exact ih (foldResult c r)

theorem aggregate_all_none (rs : List (Option FileResult))
    (h : ∀ r ∈ rs, r = none) : ∀ c, aggregate c rs = c := by
  induction rs with
  | nil => intro c; rfl
  | cons r t ih =>
    intro c
    have hr : r = none := h r (List.mem_cons_self _ _)
    subst hr
    show aggregate (foldResult c none) t = c
    rw [fold_null_noop]
    exact ih (fun r hr => h r (List.mem_cons_of_mem _ hr)) c

theorem foldVars_isSome (V : List (String × List (String × DayStats)))
    (r : Option FileResult) (v : String)
    (h : (dlookup v V).isSome = true) :
    (dlookup v (foldVars V r)).isSome = true := by
  cases r with
  | none => exact h
  | some res =>
    show (dlookup v (dinsert res.var_name _ V)).isSome = true
    rw [dlookup_dinsert]
    by_cases hv : v = res.var_name
    · rw [if_pos hv]; rfl
    · rw [if_neg hv]; exact h

theorem aggregate_vars_isSome (rs : List (Option FileResult)) (v : String) :
    ∀ c : Catalog, (dlookup v c.vars).isSome = true →
      (dlookup v (aggregate c rs).vars).isSome = true := by
  induction rs with
  | nil => intro c h; exact h
  | cons r t ih =>
    intro c h
    exact ih (foldResult c r) (foldVars_isSome c.vars r v h)

theorem foldVars_lookup_ne (V : List (String × List (String × DayStats)))
    (r : Option FileResult) (v : String)
    (h : ∀ res, r = some res → res.var_name ≠ v) :
    dlookup v (foldVars V r) = dlookup v V := by
  cases r with
  | none => rfl
  | some res =>
    show dlookup v (dinsert res.var_name _ V) = dlookup v V
    rw [dlookup_dinsert, if_neg (fun hv => h res rfl hv.symm)]

theorem aggregate_vars_lookup_ne (rs : List (Option FileResult)) (v : String)
    (h : ∀ res, some res ∈ rs → res.var_name ≠ v) :
    ∀ c : Catalog, dlookup v (aggregate c rs).vars = dlookup v c.vars := by
  induction rs with
  | nil => intro c; rfl
  | cons r t ih =>
    intro c
    show dlookup v (aggregate (foldResult c r) t).vars = dlookup v c.vars
    rw [ih (fun res hres => h res (List.mem_cons_of_mem _ hres)) (foldResult c r)]
    exact foldVars_lookup_ne c.vars r v (fun res hres => h res (hres ▸ List.mem_cons_self _ _))

theorem driver_vars_lookup_ne (dirs : String → Option (List (Option FileResult)))
    (L : List String) (v : String) (hv : v ∉ L)
    (hall : ∀ g' rs' r', dirs g' = some rs' → some r' ∈ rs' → r'.var_name = g') :
    ∀ c, dlookup v (L.foldl (fun c g => processGroup c g (dirs g)) c).vars =
      dlookup v c.vars := by
  induction L with
  | nil => intro c; rfl
  | cons a t ih =>
    intro c
    have hvt : v ∉ t := fun hm => hv (List.mem_cons_of_mem _ hm)
    have hva : v ≠ a := fun hva => hv (hva ▸ List.mem_cons_self _ _)
    show dlookup v (t.foldl _ (processGroup c a (dirs a))).vars = _
    rw [ih hvt]
    cases hda : dirs a with
    | none => rfl
    | some rsa =>
      show dlookup v (aggregate ⟨_, dinsert a [] c.vars, _⟩ rsa).vars = _
      rw [aggregate_vars_lookup_ne rsa v
        (fun res hres hname => hva ((hall a rsa res hda hres) ▸ hname).symm)]
      show dlookup v (dinsert a [] c.vars) = _
      rw [dlookup_dinsert, if_neg hva]

theorem driver_vars_isSome (dirs : String → Option (List (Option FileResult)))
    (L : List String) (v : String) :
    ∀ c, (dlookup v c.vars).isSome = true →
      (dlookup v (L.foldl (fun c g => processGroup c g (dirs g)) c).vars).isSome = true := by
  induction L with
  | nil => intro c h; exact h
  | cons a t ih =>
    intro c h
    refine ih (processGroup c a (dirs a)) ?_
    cases hda : dirs a with
    | none => exact h
    | some rsa =>
      show (dlookup v (aggregate ⟨_, dinsert a [] c.vars, _⟩ rsa).vars).isSome = true
      refine aggregate_vars_isSome rsa v _ ?_
      show (dlookup v (dinsert a [] c.vars)).isSome = true
      rw [dlookup_dinsert]
      by_cases hv : v = a
      · rw [if_pos hv]; rfl
      · rw [if_neg hv]; exact h

theorem driver_vp_mono (dirs : String → Option (List (Option FileResult)))
    (L : List String) (g : String) :
    ∀ c, g ∈ c.variables_processed →
      g ∈ (L.foldl (fun c g => processGroup c g (dirs g)) c).variables_processed := by
  induction L with
  | nil => intro c h; exact h
  | cons a t ih =>
    intro c h
    refine ih (processGroup c a (dirs a)) ?_
    cases hda : dirs a with
    | none => exact h
    | some rsa =>
      show g ∈ (aggregate ⟨c.variables_processed ++ [a], _, _⟩ rsa).variables_processed
      rw [aggregate_vp]
      exact List.mem_append_left _ h

theorem driver_vp_adds (dirs : String → Option (List (Option FileResult)))
    (L : List String) (g : String) (hg : g ∈ L) (hd : (dirs g).isSome = true) :
    ∀ c, g ∈ (L.foldl (fun c g => processGroup c g (dirs g)) c).variables_processed := by
  induction L with
  | nil => simp at hg
  | cons a t ih =>
    intro c
    by_cases hga : g = a
    · subst hga
      refine driver_vp_mono dirs t g (processGroup c g (dirs g)) ?_
      cases hdg : dirs g with
      | none => rw [hdg] at hd; simp at hd
      | some rsg =>
        show g ∈ (aggregate ⟨c.variables_processed ++ [g], _, _⟩ rsg).variables_processed
        rw [aggregate_vp]
        exact List.mem_append_right _ (List.mem_singleton.mpr rfl)
    · have hgt : g ∈ t := by
        rcases List.mem_cons.mp hg with h | h
        · exact absurd h hga
        · exact h
      show g ∈ (List.foldl (fun c g => processGroup c g (dirs g))
        (processGroup c a (dirs a)) t).variables_processed
      exact ih hgt (processGroup c a (dirs a))

/-- Claim C10: a variable-group folder that exists on disk is appended to
`variables_processed` and given an (initially empty) entry in the catalog's
`variables` before any of its files' results are folded; in particular a
group with zero files, or whose files all yield null results, still appears
in `variables_processed` and as an empty mapping in the final catalog. -/
theorem group_registration (dirs : String → Option (List (Option FileResult)))
    (g : String) (rs : List (Option FileResult)) (hg : g ∈ var_folders)
    (hdir : dirs g = some rs)
    (hall : ∀ g' rs' r', dirs g' = some rs' → some r' ∈ rs' → r'.var_name = g') :
    g ∈ (create_daily_catalog dirs).variables_processed ∧
    (dlookup g (create_daily_catalog dirs).vars).isSome = true ∧
    ((∀ r ∈ rs, r = none) →
      dlookup g (create_daily_catalog dirs).vars = some []) := by
  obtain ⟨L1, L2, hsplit⟩ := List.append_of_mem hg
  have hnodup : var_folders.Nodup := by decide
  have hgL2 : g ∉ L2 := by
    rw [hsplit] at hnodup
    have := (List.nodup_append.mp hnodup).2.1
    exact (List.nodup_cons.mp this).1
  have hvars : (create_daily_catalog dirs).vars =
      (var_folders.foldl (fun c g => processGroup c g (dirs g)) emptyCatalog).vars := rfl
  have hvp : (create_daily_catalog dirs).variables_processed =
      (var_folders.foldl (fun c g => processGroup c g (dirs g)) emptyCatalog).variables_processed := rfl
  refine ⟨?_, ?_, ?_⟩
  · rw [hvp]
    exact driver_vp_adds dirs var_folders g hg (by rw [hdir]; rfl) emptyCatalog
  · rw [hvars, hsplit, List.foldl_append, List.foldl_cons]
    refine driver_vars_isSome dirs L2 g _ ?_
    rw [hdir]
    show (dlookup g (aggregate ⟨_, dinsert g [] _, _⟩ rs).vars).isSome = true
    refine aggregate_vars_isSome rs g _ ?_
    show (dlookup g (dinsert g [] _)).isSome = true
    rw [dlookup_dinsert, if_pos rfl]
    rfl
  · intro hnull
    rw [hvars, hsplit, List.foldl_append, List.foldl_cons]
    rw [driver_vars_lookup_ne dirs L2 g hgL2 hall]
    rw [hdir]
    show dlookup g (aggregate ⟨_, dinsert g [] _, _⟩ rs).vars = some []
    rw [aggregate_all_none rs hnull]
    show dlookup g (dinsert g [] _) = some []
    rw [dlookup_dinsert, if_pos rfl]

theorem group_registration_witness :
    "air" ∈ (create_daily_catalog
        (fun g => if g = "air" then some [] else none)).variables_processed ∧
    (dlookup "air" (create_daily_catalog
        (fun g => if g = "air" then some [] else none)).vars).isSome = true ∧
    dlookup "air" (create_daily_catalog
        (fun g => if g = "air" then some [] else none)).vars = some [] := by
  have h := group_registration (fun g => if g = "air" then some [] else none)
    "air" [] (by decide) (by simp) ?_
  · exact ⟨h.1, h.2.1, h.2.2 (by simp)⟩
  · intro g' rs' r' h1 h2
    dsimp only at h1
    by_cases hg : g' = "air"
    · subst hg
      rw [if_pos rfl] at h1
      injection h1 with h1
      subst h1
      simp at h2
    · rw [if_neg hg] at h1
      exact absurd h1 (by simp)

/-! ### Order-independence of the fold (claim C1): `variables` side -/

theorem varsEquiv_refl (V : List (String × List (String × DayStats))) :
    VarsEquiv V V := ⟨fun _ => rfl, fun _ _ => rfl⟩

theorem varsEquiv_trans {A B C : List (String × List (String × DayStats))}
    (h1 : VarsEquiv A B) (h2 : VarsEquiv B C) : VarsEquiv A C :=
  ⟨fun v => (h1.1 v).trans (h2.1 v), fun v d => (h1.2 v d).trans (h2.2 v d)⟩

theorem foldVars_some (V : List (String × List (String × DayStats)))
    (res : FileResult) :
    foldVars V (some res) =
      dinsert res.var_name
        (dupdate ((dlookup res.var_name V).getD []) res.stats) V := rfl

theorem dlookup_foldVars_some (V : List (String × List (String × DayStats)))
    (res : FileResult) (v : String) :
    dlookup v (foldVars V (some res)) =
      if v = res.var_name then
        some (dupdate ((dlookup res.var_name V).getD []) res.stats)
      else dlookup v V := by
  rw [foldVars_some, dlookup_dinsert]

theorem mem_resKeys {v d : String} {res : FileResult} :
    (v, d) ∈ resKeys (some res) ↔ v = res.var_name ∧ d ∈ dkeys res.stats := by
  unfold resKeys dkeys
  constructor
  · intro h
    rcases List.mem_map.mp h with ⟨e, he, heq⟩
    refine ⟨(Prod.mk.injEq _ _ _ _ ▸ heq).1.symm, ?_⟩
    have : e.1 = d := (Prod.mk.injEq _ _ _ _ ▸ heq).2
    exact this ▸ List.mem_map_of_mem Prod.fst he
  · rintro ⟨rfl, hd⟩
    rcases List.mem_map.mp hd with ⟨e, he, heq⟩
    exact List.mem_map.mpr ⟨e, he, by rw [heq]⟩

theorem dlookup_reverse_none {β : Type} (k : String) (l : List (String × β)) :
    dlookup k l.reverse = none ↔ dlookup k l = none := by
  rw [dlookup_eq_none, dlookup_eq_none]
  unfold dkeys
  rw [List.map_reverse, List.mem_reverse]

theorem oget_comm_of_not_both {β : Type} {a b : Option β}
    (h : a = none ∨ b = none) (c : Option β) :
    oget a (oget b c) = oget b (oget a c) := by
  rcases h with rfl | rfl
  · rfl
  · cases a <;> rfl

theorem foldVars_congr {V1 V2 : List (String × List (String × DayStats))}
    (h : VarsEquiv V1 V2) (r : Option FileResult) :
    VarsEquiv (foldVars V1 r) (foldVars V2 r) := by
  cases r with
  | none => exact h
  | some res =>
    obtain ⟨hs, hl⟩ := h
    constructor
    · intro v
      rw [dlookup_foldVars_some, dlookup_foldVars_some]
      by_cases hv : v = res.var_name
      · rw [if_pos hv, if_pos hv]; rfl
      · rw [if_neg hv, if_neg hv]; exact hs v
    · intro v d
      rw [dlookup_foldVars_some, dlookup_foldVars_some]
      by_cases hv : v = res.var_name
      · rw [if_pos hv, if_pos hv]
        simp only [Option.getD_some]
        rw [dlookup_dupdate, dlookup_dupdate, hl res.var_name d]
      · rw [if_neg hv, if_neg hv]; exact hl v d

theorem disjResults_dates {a b : FileResult}
    (hdisj : DisjResults (some a) (some b)) (hw : a.var_name = b.var_name)
    (d : String) (hda : d ∈ dkeys a.stats) : d ∉ dkeys b.stats := by
  intro hdb
  exact hdisj (a.var_name, d) (mem_resKeys.mpr ⟨rfl, hda⟩)
    (mem_resKeys.mpr ⟨hw, hdb⟩)

theorem dupdate_of_disjoint_comm {sa sb m : List (String × DayStats)}
    (hdisj : ∀ d, d ∈ dkeys sa → d ∉ dkeys sb) (d : String) :
    dlookup d (dupdate (dupdate m sa) sb) =
      dlookup d (dupdate (dupdate m sb) sa) := by
  rw [dlookup_dupdate, dlookup_dupdate, dlookup_dupdate, dlookup_dupdate]
  refine oget_comm_of_not_both ?_ _
  by_cases hdb : dlookup d sb.reverse = none
  · exact Or.inl hdb
  · refine Or.inr ((dlookup_reverse_none d sa).mpr ?_)
    rw [dlookup_eq_none]
    intro hda
    have hdbm : d ∈ dkeys sb := by
      by_contra hk
      exact hdb ((dlookup_reverse_none d sb).mpr ((dlookup_eq_none d sb).mpr hk))
    exact hdisj d hda hdbm

theorem foldVars_comm {r1 r2 : Option FileResult}
    (hdisj : DisjResults r1 r2)
    (V : List (String × List (String × DayStats))) :
    VarsEquiv (foldVars (foldVars V r1) r2) (foldVars (foldVars V r2) r1) := by
  cases r1 with
  | none => exact varsEquiv_refl _
  | some a =>
    cases r2 with
    | none => exact varsEquiv_refl _
    | some b =>
      by_cases hw : a.var_name = b.var_name
      · -- same variable: the two updates merge date-disjoint dicts
        constructor
        · intro v
          by_cases hvb : v = b.var_name
          · have hva : v = a.var_name := hvb.trans hw.symm
            simp [dlookup_foldVars_some, hva, hvb, hw]
          · have hva : ¬ v = a.var_name := fun h => hvb (h.trans hw)
            simp [dlookup_foldVars_some, hva, hvb]
        · intro v d
          by_cases hvb : v = b.var_name
          · have hva : v = a.var_name := hvb.trans hw.symm
            simp only [dlookup_foldVars_some, hva, hvb, hw,
              eq_self_iff_true, if_true, Option.getD_some]
            exact dupdate_of_disjoint_comm
              (fun d hda hdb => disjResults_dates hdisj hw d hda hdb) d
          · have hva : ¬ v = a.var_name := fun h => hvb (h.trans hw)
            simp [dlookup_foldVars_some, hva, hvb]
      · -- different variables: updates touch different keys
        have hwb : ¬ b.var_name = a.var_name := fun h => hw h.symm
        constructor
        · intro v
          by_cases hvb : v = b.var_name
          · have hva : ¬ v = a.var_name := fun h => hw (h.symm.trans hvb)
            simp [dlookup_foldVars_some, hva, hvb, hw, hwb]
          · by_cases hva : v = a.var_name
            · simp [dlookup_foldVars_some, hva, hvb, hw, hwb]
            · simp [dlookup_foldVars_some, hva, hvb]
        · intro v d
          by_cases hvb : v = b.var_name
          · have hva : ¬ v = a.var_name := fun h => hw (h.symm.trans hvb)
            simp [dlookup_foldVars_some, hva, hvb, hw, hwb]
          · by_cases hva : v = a.var_name
            · simp [dlookup_foldVars_some, hva, hvb, hw, hwb]
            · simp [dlookup_foldVars_some, hva, hvb]

theorem foldlVars_congr (rs : List (Option FileResult)) :
    ∀ {V1 V2}, VarsEquiv V1 V2 →
      VarsEquiv (rs.foldl foldVars V1) (rs.foldl foldVars V2) := by
  induction rs with
  | nil => intro V1 V2 h; exact h
  | cons r t ih => intro V1 V2 h; exact ih (foldVars_congr h r)

theorem disjResults_symm {a b : Option FileResult} (h : DisjResults a b) :
    DisjResults b a := fun k hk1 hk2 => h k hk2 hk1

theorem foldlVars_perm {rs rs' : List (Option FileResult)} (hperm : rs.Perm rs') :
    PairwiseDisjoint rs → ∀ {V1 V2}, VarsEquiv V1 V2 →
      VarsEquiv (rs.foldl foldVars V1) (rs'.foldl foldVars V2) := by
  induction hperm with
  | nil => intro _ V1 V2 h; exact h
  | cons x hp ih =>
    intro hdisj V1 V2 h
    exact ih (List.pairwise_cons.mp hdisj).2 (foldVars_congr h x)
  | swap x y l =>
    intro hdisj V1 V2 h
    have hyx : DisjResults y x :=
      (List.pairwise_cons.mp hdisj).1 x (List.mem_cons_self _ _)
    show VarsEquiv (l.foldl foldVars (foldVars (foldVars V1 y) x))
      (l.foldl foldVars (foldVars (foldVars V2 x) y))
    refine foldlVars_congr l ?_
    exact varsEquiv_trans (foldVars_comm hyx V1)
      (foldVars_congr (foldVars_congr h x) y)
  | trans h12 h23 ih1 ih2 =>
    intro hdisj V1 V2 h
    have hd2 : PairwiseDisjoint _ :=
      (h12.pairwise_iff (fun hab => disjResults_symm hab)).mp hdisj
    exact varsEquiv_trans (ih1 hdisj (varsEquiv_refl V1)) (ih2 hd2 h)

/-! ### Order-independence of the fold (claim C1): `daily_summary` side -/

theorem dsumEquiv_refl (o : Option DaySummary) : DSumEquiv o o :=
  ⟨rfl, rfl, rfl, fun _ => Iff.rfl⟩

theorem dsumEquiv_of_eq {o1 o2 : Option DaySummary} (h : o1 = o2) :
    DSumEquiv o1 o2 := h ▸ dsumEquiv_refl o1

theorem dsumEquiv_trans {o1 o2 o3 : Option DaySummary}
    (h1 : DSumEquiv o1 o2) (h2 : DSumEquiv o2 o3) : DSumEquiv o1 o3 :=
  ⟨h1.1.trans h2.1, h1.2.1.trans h2.2.1, h1.2.2.1.trans h2.2.2.1,
   fun v => (h1.2.2.2 v).trans (h2.2.2.2 v)⟩

theorem summEquiv_refl (S : List (String × DaySummary)) : SummEquiv S S :=
  fun d => dsumEquiv_refl (dlookup d S)

theorem summEquiv_trans {S1 S2 S3 : List (String × DaySummary)}
    (h1 : SummEquiv S1 S2) (h2 : SummEquiv S2 S3) : SummEquiv S1 S3 :=
  fun d => dsumEquiv_trans (h1 d) (h2 d)

theorem dlookup_updateSummary1 (v : String) (e : String × DayStats)
    (S : List (String × DaySummary)) (d : String) :
    dlookup d (updateSummary1 v e S) =
      if d = e.1 then
        some ⟨((dlookup e.1 S).getD freshSummary).total_missing + e.2.missing_count,
              pyAdd v ((dlookup e.1 S).getD freshSummary).variables_affected,
              max ((dlookup e.1 S).getD freshSummary).max_percentage
                e.2.missing_percentage⟩
      else dlookup d S := by
  unfold updateSummary1
  rw [dlookup_dinsert]

theorem update1_congr {S1 S2 : List (String × DaySummary)}
    (h : SummEquiv S1 S2) (v : String) (e : String × DayStats) :
    SummEquiv (updateSummary1 v e S1) (updateSummary1 v e S2) := by
  intro d
  rw [dlookup_updateSummary1, dlookup_updateSummary1]
  by_cases hd : d = e.1
  · rw [if_pos hd, if_pos hd]
    obtain ⟨hiss, ht, hm, ha⟩ := h e.1
    refine ⟨rfl, ?_, ?_, ?_⟩
    · simp only [Option.getD_some]
      rw [ht]
    · simp only [Option.getD_some]
      rw [hm]
    · intro w
      simp only [Option.getD_some]
      rw [mem_pyAdd, mem_pyAdd]
      exact or_congr Iff.rfl (ha w)
  · rw [if_neg hd, if_neg hd]
    exact h d

theorem update1_comm (v v' : String) (e e' : String × DayStats)
    (S : List (String × DaySummary)) :
    SummEquiv (updateSummary1 v e (updateSummary1 v' e' S))
      (updateSummary1 v' e' (updateSummary1 v e S)) := by
  intro d
  by_cases hee : e.1 = e'.1
  · by_cases hd : d = e.1
    · simp only [dlookup_updateSummary1, hd, hee, eq_self_iff_true, if_true,
        Option.getD_some]
      refine ⟨rfl, ?_, ?_, ?_⟩
      · exact Nat.add_right_comm _ _ _
      · exact sup_right_comm _ _ _
      · intro w
        simp only [Option.getD_some]
        rw [mem_pyAdd, mem_pyAdd, mem_pyAdd, mem_pyAdd]
        tauto
    · have hd' : ¬ d = e'.1 := fun h => hd (h.trans hee.symm)
      refine dsumEquiv_of_eq ?_
      simp only [dlookup_updateSummary1, if_neg hd, if_neg hd']
  · have hee' : ¬ e'.1 = e.1 := fun h => hee h.symm
    by_cases hd : d = e.1
    · have hd' : ¬ d = e'.1 := fun h => hee (hd.symm.trans h)
      refine dsumEquiv_of_eq ?_
      simp only [dlookup_updateSummary1, if_pos hd, if_neg hd', if_neg hee,
        if_neg hee']
    · by_cases hd' : d = e'.1
      · refine dsumEquiv_of_eq ?_
        simp only [dlookup_updateSummary1, if_neg hd, if_pos hd', if_neg hee,
          if_neg hee']
      · refine dsumEquiv_of_eq ?_
        simp only [dlookup_updateSummary1, if_neg hd, if_neg hd']

theorem foldEntries_congr (w : String) (l : List (String × DayStats)) :
    ∀ {S1 S2}, SummEquiv S1 S2 →
      SummEquiv (l.foldl (fun acc e => updateSummary1 w e acc) S1)
        (l.foldl (fun acc e => updateSummary1 w e acc) S2) := by
  induction l with
  | nil => intro S1 S2 h; exact h
  | cons x t ih => intro S1 S2 h; exact ih (update1_congr h w x)

theorem foldEntries_push (v w : String) (e : String × DayStats)
    (l : List (String × DayStats)) :
    ∀ S, SummEquiv (l.foldl (fun acc x => updateSummary1 w x acc) (updateSummary1 v e S))
      (updateSummary1 v e (l.foldl (fun acc x => updateSummary1 w x acc) S)) := by
  induction l with
  | nil => intro S; exact summEquiv_refl _
  | cons x t ih =>
    intro S
    refine summEquiv_trans (foldEntries_congr w t (update1_comm w v x e S)) ?_
    exact ih (updateSummary1 w x S)

theorem foldEntries_blocks_comm (w1 : String) (l1 : List (String × DayStats))
    (w2 : String) (l2 : List (String × DayStats)) :
    ∀ S, SummEquiv
      (l2.foldl (fun acc x => updateSummary1 w2 x acc)
        (l1.foldl (fun acc x => updateSummary1 w1 x acc) S))
      (l1.foldl (fun acc x => updateSummary1 w1 x acc)
        (l2.foldl (fun acc x => updateSummary1 w2 x acc) S)) := by
  induction l1 with
  | nil => intro S; exact summEquiv_refl _
  | cons x t ih =>
    intro S
    refine summEquiv_trans (ih (updateSummary1 w1 x S)) ?_
    exact foldEntries_congr w1 t (foldEntries_push w1 w2 x l2 S)

theorem foldSummary_congr {S1 S2 : List (String × DaySummary)}
    (h : SummEquiv S1 S2) (r : Option FileResult) :
    SummEquiv (foldSummary S1 r) (foldSummary S2 r) := by
  cases r with
  | none => exact h
  | some res => exact foldEntries_congr res.var_name res.stats h

theorem foldSummary_comm (r1 r2 : Option FileResult)
    (S : List (String × DaySummary)) :
    SummEquiv (foldSummary (foldSummary S r1) r2)
      (foldSummary (foldSummary S r2) r1) := by
  cases r1 with
  | none => exact summEquiv_refl _
  | some a =>
    cases r2 with
    | none => exact summEquiv_refl _
    | some b => exact foldEntries_blocks_comm a.var_name a.stats b.var_name b.stats S

theorem foldlSummary_congr (rs : List (Option FileResult)) :
    ∀ {S1 S2}, SummEquiv S1 S2 →
      SummEquiv (rs.foldl foldSummary S1) (rs.foldl foldSummary S2) := by
  induction rs with
  | nil => intro S1 S2 h; exact h
  | cons r t ih => intro S1 S2 h; exact ih (foldSummary_congr h r)

theorem foldlSummary_perm {rs rs' : List (Option FileResult)}
    (hperm : rs.Perm rs') :
    ∀ {S1 S2}, SummEquiv S1 S2 →
      SummEquiv (rs.foldl foldSummary S1) (rs'.foldl foldSummary S2) := by
  induction hperm with
  | nil => intro S1 S2 h; exact h
  | cons x hp ih => intro S1 S2 h; exact ih (foldSummary_congr h x)
  | swap x y l =>
    intro S1 S2 h
    show SummEquiv (l.foldl foldSummary (foldSummary (foldSummary S1 y) x))
      (l.foldl foldSummary (foldSummary (foldSummary S2 x) y))
    refine foldlSummary_congr l ?_
    exact summEquiv_trans (foldSummary_comm y x S1)
      (foldSummary_congr (foldSummary_congr h x) y)
  | trans h12 h23 ih1 ih2 =>
    intro S1 S2 h
    exact summEquiv_trans (ih1 (summEquiv_refl S1)) (ih2 h)

/-! ### Order-independence of the fold (claim C1): assembly -/

theorem aggregate_vars_foldl (rs : List (Option FileResult)) :
    ∀ c : Catalog, (aggregate c rs).vars = rs.foldl foldVars c.vars := by
  induction rs with
  | nil => intro c; rfl
  | cons r t ih => intro c; exact ih (foldResult c r)

theorem aggregate_summary_foldl (rs : List (Option FileResult)) :
    ∀ c : Catalog,
      (aggregate c rs).daily_summary = rs.foldl foldSummary c.daily_summary := by
  induction rs with
  | nil => intro c; rfl
  | cons r t ih => intro c; exact ih (foldResult c r)

/-- Claim C1: folding a set of FileResults into a catalog is order-independent
— for any two permutations of the same results with no (variable, date) key
collision between distinct results (the carved-out last-write-wins case), the
final catalogs are identical in the sense of Python `==` (`CatalogEquiv`:
dicts extensionally, affected sets by membership).  Starting from an
arbitrary catalog subsumes the claim's empty starting catalog. -/
theorem fold_order_independent (c0 : Catalog) (rs rs' : List (Option FileResult))
    (hperm : rs.Perm rs') (hdisj : PairwiseDisjoint rs) :
    CatalogEquiv (aggregate c0 rs) (aggregate c0 rs') := by
  refine ⟨?_, ?_, ?_⟩
  · rw [aggregate_vp, aggregate_vp]
  · rw [aggregate_vars_foldl, aggregate_vars_foldl]
    exact foldlVars_perm hperm hdisj (varsEquiv_refl c0.vars)
  · rw [aggregate_summary_foldl, aggregate_summary_foldl]
    exact foldlSummary_perm hperm (summEquiv_refl c0.daily_summary)

theorem fold_order_independent_witness :
    CatalogEquiv (aggregate emptyCatalog [some rA, some rV])
      (aggregate emptyCatalog [some rV, some rA]) :=
  fold_order_independent emptyCatalog [some rA, some rV] [some rV, some rA]
    (List.Perm.swap (some rV) (some rA) [])
    (by unfold PairwiseDisjoint DisjResults; decide)

/-! ### Daily-summary invariant (claim C2): helper lemmas -/

theorem oget_isSome {β : Type} (a b : Option β) :
    (oget a b).isSome = true ↔ a.isSome = true ∨ b.isSome = true := by
  cases a <;> simp [oget]

theorem dlookup_dupdate_nodup {β : Type} {stats : List (String × β)}
    (m : List (String × β)) (d : String) (hst : NodupKeys stats) :
    dlookup d (dupdate m stats) = oget (dlookup d stats) (dlookup d m) := by
  rw [dlookup_dupdate, dlookup_reverse d hst]

theorem mcAt_dupdate {stats : List (String × DayStats)}
    (m : List (String × DayStats)) (d : String) (hst : NodupKeys stats) :
    mcAt d (dupdate m stats) =
      match dlookup d stats with
      | some s => s.missing_count
      | none => mcAt d m := by
  unfold mcAt
  rw [dlookup_dupdate_nodup m d hst]
  cases dlookup d stats <;> rfl

theorem dinsert_cons {β : Type} (k : String) (v : β) (k' : String) (v' : β)
    (t : List (String × β)) :
    dinsert k v ((k', v') :: t) =
      if k' = k then (k, v) :: t else (k', v') :: dinsert k v t := rfl

theorem resContrib_some {res : FileResult} (d : String)
    (hst : NodupKeys res.stats) :
    resContrib (some res) d =
      match dlookup d res.stats with
      | some s => s.missing_count
      | none => 0 := by
  cases h : dlookup d res.stats with
  | some s =>
    show ((res.stats.filter (fun e => decide (e.1 = d))).map
      (fun e => e.2.missing_count)).sum = s.missing_count
    rw [filter_key_of_dlookup hst h]
    rfl
  | none =>
    show ((res.stats.filter (fun e => decide (e.1 = d))).map
      (fun e => e.2.missing_count)).sum = 0
    rw [filter_key_of_not_mem ((dlookup_eq_none d res.stats).mp h)]
    rfl

theorem varsTotal_dinsert_fresh {V : List (String × List (String × DayStats))}
    {v : String} (m' : List (String × DayStats)) (d : String)
    (hv : dlookup v V = none) :
    varsTotal d (dinsert v m' V) = varsTotal d V + mcAt d m' := by
  induction V with
  | nil => simp [varsTotal, dinsert, Nat.add_comm]
  | cons e t ih =>
    obtain ⟨e1, e2⟩ := e
    by_cases he : e1 = v
    · rw [dlookup, if_pos he.symm] at hv
      exact absurd hv (by simp)
    · have hvt : dlookup v t = none := by
        rw [dlookup, if_neg (fun h => he h.symm)] at hv
        exact hv
      rw [dinsert_cons, if_neg he]
      have ht := ih hvt
      unfold varsTotal at *
      simp only [List.map_cons, List.sum_cons]
      omega

theorem varsTotal_dinsert_swap {V : List (String × List (String × DayStats))}
    {v : String} {m0 : List (String × DayStats)}
    (m' : List (String × DayStats)) (d : String) (hnd : NodupKeys V)
    (hv : dlookup v V = some m0) :
    varsTotal d (dinsert v m' V) + mcAt d m0 = varsTotal d V + mcAt d m' := by
  induction V with
  | nil => simp [dlookup] at hv
  | cons e t ih =>
    obtain ⟨e1, e2⟩ := e
    by_cases he : e1 = v
    · have hm0 : e2 = m0 := by
        rw [dlookup, if_pos he.symm] at hv
        injection hv
      rw [dinsert_cons, if_pos he]
      subst hm0
      unfold varsTotal
      simp only [List.map_cons, List.sum_cons]
      omega
    · have hvt : dlookup v t = some m0 := by
        rw [dlookup, if_neg (fun h => he h.symm)] at hv
        exact hv
      rw [dinsert_cons, if_neg he]
      have ht := ih (List.nodup_cons.mp hnd).2 hvt
      unfold varsTotal at *
      simp only [List.map_cons, List.sum_cons]
      omega

theorem totalAt_update1 (v : String) (e : String × DayStats)
    (S : List (String × DaySummary)) (d : String) :
    totalAt d (updateSummary1 v e S) =
      totalAt d S + (if e.1 = d then e.2.missing_count else 0) := by
  unfold totalAt
  rw [dlookup_updateSummary1]
  by_cases hd : d = e.1
  · rw [if_pos hd, if_pos hd.symm, hd]
    rfl
  · rw [if_neg hd, if_neg (fun h => hd h.symm)]
    omega

theorem isSomeAt_update1 (v : String) (e : String × DayStats)
    (S : List (String × DaySummary)) (d : String) :
    (dlookup d (updateSummary1 v e S)).isSome = true ↔
      d = e.1 ∨ (dlookup d S).isSome = true := by
  rw [dlookup_updateSummary1]
  by_cases hd : d = e.1
  · simp [hd]
  · simp [hd]

theorem affectedAt_update1 (v : String) (e : String × DayStats)
    (S : List (String × DaySummary)) (d w : String) :
    w ∈ affectedAt d (updateSummary1 v e S) ↔
      (d = e.1 ∧ w = v) ∨ w ∈ affectedAt d S := by
  unfold affectedAt
  rw [dlookup_updateSummary1]
  by_cases hd : d = e.1
  · rw [if_pos hd, hd]
    simp only [Option.getD_some]
    rw [mem_pyAdd]
    tauto
  · rw [if_neg hd]
    tauto

theorem maxAt_update1 (v : String) (e : String × DayStats)
    (S : List (String × DaySummary)) (d : String) :
    maxAt d (updateSummary1 v e S) =
      if e.1 = d then max (maxAt d S) e.2.missing_percentage else maxAt d S := by
  unfold maxAt
  rw [dlookup_updateSummary1]
  by_cases hd : d = e.1
  · rw [if_pos hd, if_pos hd.symm, hd]
    rfl
  · rw [if_neg hd, if_neg (fun h => hd h.symm)]

theorem totalAt_foldEntries (w : String) (l : List (String × DayStats)) :
    ∀ S d, totalAt d (l.foldl (fun acc e => updateSummary1 w e acc) S) =
      totalAt d S +
        ((l.filter (fun e => decide (e.1 = d))).map
          (fun e => e.2.missing_count)).sum := by
  induction l with
  | nil => intro S d; simp
  | cons x t ih =>
    intro S d
    show totalAt d (t.foldl _ (updateSummary1 w x S)) = _
    rw [ih, totalAt_update1]
    by_cases hx : x.1 = d
    · simp only [List.filter_cons, hx, decide_eq_true_eq, eq_self_iff_true,
        if_true, List.map_cons, List.sum_cons]
      omega
    · simp only [List.filter_cons, decide_eq_true_eq, hx, if_false]
      omega

theorem isSomeAt_foldEntries (w : String) (l : List (String × DayStats)) :
    ∀ S d, (dlookup d (l.foldl (fun acc e => updateSummary1 w e acc) S)).isSome = true ↔
      d ∈ dkeys l ∨ (dlookup d S).isSome = true := by
  induction l with
  | nil => intro S d; simp [dkeys]
  | cons x t ih =>
    intro S d
    show (dlookup d (t.foldl _ (updateSummary1 w x S))).isSome = true ↔ _
    rw [ih, isSomeAt_update1]
    show _ ↔ d ∈ x.1 :: dkeys t ∨ _
    rw [List.mem_cons]
    tauto

theorem affectedAt_foldEntries (w : String) (l : List (String × DayStats)) :
    ∀ S d u, u ∈ affectedAt d (l.foldl (fun acc e => updateSummary1 w e acc) S) ↔
      (d ∈ dkeys l ∧ u = w) ∨ u ∈ affectedAt d S := by
  induction l with
  | nil => intro S d u; simp [dkeys]
  | cons x t ih =>
    intro S d u
    show u ∈ affectedAt d (t.foldl _ (updateSummary1 w x S)) ↔ _
    rw [ih, affectedAt_update1]
    show _ ↔ (d ∈ x.1 :: dkeys t ∧ _) ∨ _
    rw [List.mem_cons]
    tauto

theorem maxAt_foldEntries (w : String) (l : List (String × DayStats)) :
    ∀ S d, maxAt d (l.foldl (fun acc e => updateSummary1 w e acc) S) =
      List.foldl max (maxAt d S)
        ((l.filter (fun e => decide (e.1 = d))).map
          (fun e => e.2.missing_percentage)) := by
  induction l with
  | nil => intro S d; rfl
  | cons x t ih =>
    intro S d
    show maxAt d (t.foldl _ (updateSummary1 w x S)) = _
    rw [ih, maxAt_update1]
    by_cases hx : x.1 = d
    · simp only [List.filter_cons, hx, decide_eq_true_eq, eq_self_iff_true,
        if_true, List.map_cons, List.foldl_cons]
    · simp only [List.filter_cons, decide_eq_true_eq]
      rw [if_neg hx, if_neg (show ¬ (x.1 = d) from hx)]

theorem totalAt_foldSummary (r : Option FileResult)
    (S : List (String × DaySummary)) (d : String) :
    totalAt d (foldSummary S r) = totalAt d S + resContrib r d := by
  cases r with
  | none => rfl
  | some res => exact totalAt_foldEntries res.var_name res.stats S d

theorem isSomeAt_foldSummary (r : Option FileResult)
    (S : List (String × DaySummary)) (d : String) :
    (dlookup d (foldSummary S r)).isSome = true ↔
      (∃ v, (v, d) ∈ resKeys r) ∨ (dlookup d S).isSome = true := by
  cases r with
  | none => simp [foldSummary, resKeys]
  | some res =>
    rw [show foldSummary S (some res) =
      res.stats.foldl (fun acc e => updateSummary1 res.var_name e acc) S from rfl]
    rw [isSomeAt_foldEntries]
    constructor
    · rintro (hk | hs)
      · exact Or.inl ⟨res.var_name, mem_resKeys.mpr ⟨rfl, hk⟩⟩
      · exact Or.inr hs
    · rintro (⟨v, hv⟩ | hs)
      · exact Or.inl (mem_resKeys.mp hv).2
      · exact Or.inr hs

theorem affected_foldSummary (r : Option FileResult)
    (S : List (String × DaySummary)) (d u : String) :
    u ∈ affectedAt d (foldSummary S r) ↔
      (u, d) ∈ resKeys r ∨ u ∈ affectedAt d S := by
  cases r with
  | none => simp [foldSummary, resKeys]
  | some res =>
    rw [show foldSummary S (some res) =
      res.stats.foldl (fun acc e => updateSummary1 res.var_name e acc) S from rfl]
    rw [affectedAt_foldEntries, mem_resKeys]
    tauto

theorem maxAt_foldSummary (r : Option FileResult)
    (S : List (String × DaySummary)) (d : String) :
    maxAt d (foldSummary S r) = List.foldl max (maxAt d S) (resPcts r d) := by
  cases r with
  | none => rfl
  | some res => exact maxAt_foldEntries res.var_name res.stats S d

theorem aggregate_append_singleton (c : Catalog) (rs : List (Option FileResult))
    (r : Option FileResult) :
    aggregate c (rs ++ [r]) = foldResult (aggregate c rs) r := by
  unfold aggregate
  rw [List.foldl_append]
  rfl

theorem totalAt_aggregate (rs : List (Option FileResult)) :
    ∀ (c : Catalog) (d : String),
      totalAt d (aggregate c rs).daily_summary =
        totalAt d c.daily_summary + (rs.map (fun r => resContrib r d)).sum := by
  induction rs with
  | nil => intro c d; simp [aggregate]
  | cons r t ih =>
    intro c d
    show totalAt d (aggregate (foldResult c r) t).daily_summary = _
    rw [ih]
    show totalAt d (foldSummary c.daily_summary r) + _ = _
    rw [totalAt_foldSummary]
    simp only [List.map_cons, List.sum_cons]
    omega

theorem isSomeAt_aggregate (rs : List (Option FileResult)) :
    ∀ (c : Catalog) (d : String),
      (dlookup d (aggregate c rs).daily_summary).isSome = true ↔
        (∃ r ∈ rs, ∃ v, (v, d) ∈ resKeys r) ∨
          (dlookup d c.daily_summary).isSome = true := by
  induction rs with
  | nil => intro c d; simp [aggregate]
  | cons r t ih =>
    intro c d
    show (dlookup d (aggregate (foldResult c r) t).daily_summary).isSome = true ↔ _
    rw [ih]
    show _ ∨ (dlookup d (foldSummary c.daily_summary r)).isSome = true ↔ _
    rw [isSomeAt_foldSummary]
    constructor
    · rintro (⟨r', hr', hv⟩ | ⟨v, hv⟩ | hs)
      · exact Or.inl ⟨r', List.mem_cons_of_mem _ hr', hv⟩
      · exact Or.inl ⟨r, List.mem_cons_self _ _, v, hv⟩
      · exact Or.inr hs
    · rintro (⟨r', hr', hv⟩ | hs)
      · rcases List.mem_cons.mp hr' with rfl | hr'
        · exact Or.inr (Or.inl hv)
        · exact Or.inl ⟨r', hr', hv⟩
      · exact Or.inr (Or.inr hs)

theorem affected_aggregate (rs : List (Option FileResult)) :
    ∀ (c : Catalog) (d u : String),
      u ∈ affectedAt d (aggregate c rs).daily_summary ↔
        (∃ r ∈ rs, (u, d) ∈ resKeys r) ∨ u ∈ affectedAt d c.daily_summary := by
  induction rs with
  | nil => intro c d u; simp [aggregate]
  | cons r t ih =>
    intro c d u
    show u ∈ affectedAt d (aggregate (foldResult c r) t).daily_summary ↔ _
    rw [ih]
    show _ ∨ u ∈ affectedAt d (foldSummary c.daily_summary r) ↔ _
    rw [affected_foldSummary]
    constructor
    · rintro (⟨r', hr', hv⟩ | hv | hs)
      · exact Or.inl ⟨r', List.mem_cons_of_mem _ hr', hv⟩
      · exact Or.inl ⟨r, List.mem_cons_self _ _, hv⟩
      · exact Or.inr hs
    · rintro (⟨r', hr', hv⟩ | hs)
      · rcases List.mem_cons.mp hr' with rfl | hr'
        · exact Or.inr (Or.inl hv)
        · exact Or.inl ⟨r', hr', hv⟩
      · exact Or.inr (Or.inr hs)

theorem maxAt_aggregate (rs : List (Option FileResult)) :
    ∀ (c : Catalog) (d : String),
      maxAt d (aggregate c rs).daily_summary =
        List.foldl max (maxAt d c.daily_summary) (allPcts rs d) := by
  induction rs with
  | nil => intro c d; rfl
  | cons r t ih =>
    intro c d
    show maxAt d (aggregate (foldResult c r) t).daily_summary = _
    rw [ih]
    show List.foldl max (maxAt d (foldSummary c.daily_summary r)) _ = _
    rw [maxAt_foldSummary]
    show _ = List.foldl max _ (allPcts (r :: t) d)
    rw [show allPcts (r :: t) d = resPcts r d ++ allPcts t d by
      simp [allPcts]]
    rw [List.foldl_append]

theorem foldl_max_init_le (l : List ℚ) : ∀ a : ℚ, a ≤ l.foldl max a := by
  induction l with
  | nil => intro a; exact le_refl a
  | cons x t ih =>
    intro a
    exact le_trans (le_max_left a x) (ih (max a x))

theorem foldl_max_ub (l : List ℚ) : ∀ (a b : ℚ), b ∈ l → b ≤ l.foldl max a := by
  induction l with
  | nil => intro a b hb; simp at hb
  | cons x t ih =>
    intro a b hb
    rcases List.mem_cons.mp hb with rfl | hb
    · exact le_trans (le_max_right a b) (foldl_max_init_le t (max a b))
    · exact ih (max a x) b hb

theorem foldl_max_mem_or (l : List ℚ) :
    ∀ a : ℚ, l.foldl max a = a ∨ l.foldl max a ∈ l := by
  induction l with
  | nil => intro a; exact Or.inl rfl
  | cons x t ih =>
    intro a
    rcases ih (max a x) with h | h
    · rcases max_choice a x with hm | hm
      · exact Or.inl (by rw [List.foldl_cons, h, hm])
      · exact Or.inr (by rw [List.foldl_cons, h, hm]; exact List.mem_cons_self _ _)
    · exact Or.inr (List.mem_cons_of_mem _ h)

theorem foldl_max_mem_of_nonneg {l : List ℚ} (hpos : ∀ p ∈ l, 0 ≤ p)
    (hne : l ≠ []) : l.foldl max 0 ∈ l := by
  rcases foldl_max_mem_or l 0 with h | h
  · rcases List.exists_mem_of_ne_nil l hne with ⟨p, hp⟩
    have h1 : p ≤ l.foldl max 0 := foldl_max_ub l 0 p hp
    have h2 : 0 ≤ p := hpos p hp
    rw [h] at h1
    have : p = (0 : ℚ) := le_antisymm h1 h2
    rw [h, ← this]
    exact hp
  · exact h

theorem mem_allPcts {rs : List (Option FileResult)} {d : String} {p : ℚ} :
    p ∈ allPcts rs d ↔ ∃ r ∈ rs, p ∈ resPcts r d := by
  unfold allPcts
  rw [List.mem_flatten]
  constructor
  · rintro ⟨s, hs, hp⟩
    rcases List.mem_map.mp hs with ⟨r, hr, rfl⟩
    exact ⟨r, hr, hp⟩
  · rintro ⟨r, hr, hp⟩
    exact ⟨resPcts r d, List.mem_map_of_mem _ hr, hp⟩

theorem mem_resPcts {res : FileResult} {d : String} {p : ℚ} :
    p ∈ resPcts (some res) d ↔
      ∃ e ∈ res.stats, e.1 = d ∧ e.2.missing_percentage = p := by
  show p ∈ (res.stats.filter _).map _ ↔ _
  rw [List.mem_map]
  constructor
  · rintro ⟨e, he, rfl⟩
    have := List.mem_filter.mp he
    exact ⟨e, this.1, of_decide_eq_true this.2, rfl⟩
  · rintro ⟨e, he, hd, hp⟩
    exact ⟨e, List.mem_filter.mpr ⟨he, decide_eq_true hd⟩, hp⟩

theorem mem_catPcts {d : String} {V : List (String × List (String × DayStats))}
    {p : ℚ} :
    p ∈ catPcts d V ↔
      ∃ e ∈ V, ∃ s, dlookup d e.2 = some s ∧ s.missing_percentage = p := by
  unfold catPcts
  rw [List.mem_filterMap]
  constructor
  · rintro ⟨e, he, hp⟩
    rcases Option.map_eq_some'.mp hp with ⟨s, hs, rfl⟩
    exact ⟨e, he, s, hs, rfl⟩
  · rintro ⟨e, he, s, hs, hp⟩
    exact ⟨e, he, by rw [hs]; simpa using hp⟩

theorem mem_dkeys_reverse {β : Type} (d : String) (l : List (String × β)) :
    d ∈ dkeys l.reverse ↔ d ∈ dkeys l := by
  unfold dkeys
  rw [List.map_reverse, List.mem_reverse]

theorem hasKey_foldVars (V : List (String × List (String × DayStats)))
    (r : Option FileResult) (v d : String) :
    hasKey (foldVars V r) v d ↔ (v, d) ∈ resKeys r ∨ hasKey V v d := by
  cases r with
  | none => simp [foldVars, resKeys]
  | some res =>
    unfold hasKey
    rw [dlookup_foldVars_some]
    by_cases hv : v = res.var_name
    · rw [if_pos hv]
      simp only [Option.getD_some]
      rw [dlookup_dupdate, oget_isSome, dlookup_isSome, mem_dkeys_reverse, hv]
      constructor
      · rintro (hk | hm)
        · exact Or.inl (mem_resKeys.mpr ⟨rfl, hk⟩)
        · exact Or.inr hm
      · rintro (hk | hm)
        · exact Or.inl (mem_resKeys.mp hk).2
        · exact Or.inr hm
    · rw [if_neg hv]
      constructor
      · exact Or.inr
      · rintro (hk | hm)
        · exact absurd (mem_resKeys.mp hk).1 hv
        · exact hm

theorem hasKey_aggregate (rs : List (Option FileResult)) :
    ∀ (c : Catalog) (v d : String),
      hasKey (aggregate c rs).vars v d ↔
        (∃ r ∈ rs, (v, d) ∈ resKeys r) ∨ hasKey c.vars v d := by
  induction rs with
  | nil => intro c v d; simp [aggregate]
  | cons r t ih =>
    intro c v d
    show hasKey (aggregate (foldResult c r) t).vars v d ↔ _
    rw [ih]
    show _ ∨ hasKey (foldVars c.vars r) v d ↔ _
    rw [hasKey_foldVars]
    constructor
    · rintro (⟨r', hr', hk⟩ | hk | hm)
      · exact Or.inl ⟨r', List.mem_cons_of_mem _ hr', hk⟩
      · exact Or.inl ⟨r, List.mem_cons_self _ _, hk⟩
      · exact Or.inr hm
    · rintro (⟨r', hr', hk⟩ | hm)
      · rcases List.mem_cons.mp hr' with rfl | hr'
        · exact Or.inr (Or.inl hk)
        · exact Or.inl ⟨r', hr', hk⟩
      · exact Or.inr (Or.inr hm)

theorem not_hasKey_nil (v d : String) :
    ¬ hasKey ([] : List (String × List (String × DayStats))) v d := by
  simp [hasKey, dlookup]

theorem value_src_foldVars {V : List (String × List (String × DayStats))}
    {r : Option FileResult} {v d : String} {s : DayStats}
    (h : dlookup d ((dlookup v (foldVars V r)).getD []) = some s) :
    (∃ res, r = some res ∧ res.var_name = v ∧ (d, s) ∈ res.stats) ∨
      dlookup d ((dlookup v V).getD []) = some s := by
  cases r with
  | none => exact Or.inr h
  | some res =>
    rw [dlookup_foldVars_some] at h
    by_cases hv : v = res.var_name
    · rw [if_pos hv] at h
      simp only [Option.getD_some] at h
      rw [dlookup_dupdate] at h
      cases hrev : dlookup d res.stats.reverse with
      | some s2 =>
        rw [hrev] at h
        have hs : s2 = s := by simpa [oget] using h
        subst hs
        exact Or.inl ⟨res, rfl, hv.symm, List.mem_reverse.mp (dlookup_mem hrev)⟩
      | none =>
        rw [hrev] at h
        refine Or.inr ?_
        rw [hv]
        simpa [oget] using h
    · rw [if_neg hv] at h
      exact Or.inr h

theorem value_src_aggregate (rs : List (Option FileResult)) :
    ∀ (c : Catalog) (v d : String) (s : DayStats),
      dlookup d ((dlookup v (aggregate c rs).vars).getD []) = some s →
      (∃ res, some res ∈ rs ∧ res.var_name = v ∧ (d, s) ∈ res.stats) ∨
        dlookup d ((dlookup v c.vars).getD []) = some s := by
  induction rs with
  | nil => intro c v d s h; exact Or.inr h
  | cons r t ih =>
    intro c v d s h
    rcases ih (foldResult c r) v d s h with ⟨res, hres, hvn, hmem⟩ | hbase
    · exact Or.inl ⟨res, List.mem_cons_of_mem _ hres, hvn, hmem⟩
    · rcases value_src_foldVars hbase with ⟨res, rfl, hvn, hmem⟩ | hc
      · exact Or.inl ⟨res, List.mem_cons_self _ _, hvn, hmem⟩
      · exact Or.inr hc

theorem value_preserved_foldVars {V : List (String × List (String × DayStats))}
    {r : Option FileResult} {v d : String} (h : (v, d) ∉ resKeys r) :
    dlookup d ((dlookup v (foldVars V r)).getD []) =
      dlookup d ((dlookup v V).getD []) := by
  cases r with
  | none => rfl
  | some res =>
    rw [dlookup_foldVars_some]
    by_cases hv : v = res.var_name
    · rw [if_pos hv]
      simp only [Option.getD_some]
      rw [dlookup_dupdate]
      have hd : d ∉ dkeys res.stats := fun hd => h (mem_resKeys.mpr ⟨hv, hd⟩)
      have hrev : dlookup d res.stats.reverse = none := by
        rw [dlookup_eq_none, mem_dkeys_reverse]
        exact hd
      rw [hrev, hv]
      rfl
    · rw [if_neg hv]

theorem value_preserved_aggregate (rs : List (Option FileResult)) (v d : String)
    (h : ∀ r ∈ rs, (v, d) ∉ resKeys r) :
    ∀ c : Catalog,
      dlookup d ((dlookup v (aggregate c rs).vars).getD []) =
        dlookup d ((dlookup v c.vars).getD []) := by
  induction rs with
  | nil => intro c; rfl
  | cons r t ih =>
    intro c
    show dlookup d ((dlookup v (aggregate (foldResult c r) t).vars).getD []) = _
    rw [ih (fun r2 hr2 => h r2 (List.mem_cons_of_mem _ hr2)) (foldResult c r)]
    exact value_preserved_foldVars (h r (List.mem_cons_self _ _))

theorem value_set_foldVars {V : List (String × List (String × DayStats))}
    {res : FileResult} {v d : String} {s : DayStats}
    (hv : res.var_name = v) (hst : NodupKeys res.stats)
    (hmem : (d, s) ∈ res.stats) :
    dlookup d ((dlookup v (foldVars V (some res))).getD []) = some s := by
  rw [dlookup_foldVars_some, if_pos hv.symm]
  simp only [Option.getD_some]
  rw [dlookup_dupdate_nodup _ _ hst, mem_dlookup hst hmem]
  rfl

theorem nodupKeys_foldVars (V : List (String × List (String × DayStats)))
    (r : Option FileResult) (h : NodupKeys V) : NodupKeys (foldVars V r) := by
  cases r with
  | none => exact h
  | some res => exact nodupKeys_dinsert _ _ h

theorem nodupKeys_aggregate (rs : List (Option FileResult)) :
    ∀ c : Catalog, NodupKeys c.vars → NodupKeys (aggregate c rs).vars := by
  induction rs with
  | nil => intro c h; exact h
  | cons r t ih =>
    intro c h
    exact ih (foldResult c r) (nodupKeys_foldVars c.vars r h)

theorem emptyCatalog_vars_nodup : NodupKeys emptyCatalog.vars :=
  List.nodup_nil

theorem varsTotal_aggregate (rs : List (Option FileResult)) :
    PairwiseDisjoint rs → WFResults rs → ∀ d : String,
      varsTotal d (aggregate emptyCatalog rs).vars =
        (rs.map (fun r => resContrib r d)).sum := by
  induction rs using List.reverseRecOn with
  | nil => intro _ _ d; rfl
  | append_singleton rs r ih =>
    intro hdisj hwf d
    have hpw := List.pairwise_append.mp hdisj
    have hdisj2 : PairwiseDisjoint rs := hpw.1
    have hcross : ∀ a ∈ rs, DisjResults a r :=
      fun a ha => hpw.2.2 a ha r (List.mem_singleton.mpr rfl)
    have hwf2 : WFResults rs := fun x hx => hwf x (List.mem_append_left _ hx)
    have hwfr : WFResult r :=
      hwf r (List.mem_append_right _ (List.mem_singleton.mpr rfl))
    rw [aggregate_append_singleton, List.map_append, List.sum_append]
    cases r with
    | none =>
      show varsTotal d (aggregate emptyCatalog rs).vars = _
      rw [ih hdisj2 hwf2 d]
      simp [resContrib]
    | some res =>
      have hndA : NodupKeys (aggregate emptyCatalog rs).vars :=
        nodupKeys_aggregate rs emptyCatalog emptyCatalog_vars_nodup
      have hstats : NodupKeys res.stats := hwfr
      show varsTotal d (foldVars (aggregate emptyCatalog rs).vars (some res)) = _
      rw [foldVars_some]
      simp only [List.map_cons, List.map_nil, List.sum_cons, List.sum_nil]
      cases hv : dlookup res.var_name (aggregate emptyCatalog rs).vars with
      | none =>
        simp only [Option.getD_none]
        rw [varsTotal_dinsert_fresh _ d hv, ih hdisj2 hwf2 d,
          mcAt_dupdate _ d hstats, resContrib_some d hstats]
        cases hds : dlookup d res.stats with
        | some s => simp [hds, mcAt, dlookup]
        | none => simp [hds, mcAt, dlookup]
      | some m0 =>
        simp only [Option.getD_some]
        have hswap := varsTotal_dinsert_swap (dupdate m0 res.stats) d hndA hv
        rw [mcAt_dupdate m0 d hstats] at hswap
        by_cases hds : (dlookup d res.stats).isSome = true
        · have hkey : ¬ hasKey (aggregate emptyCatalog rs).vars res.var_name d := by
            intro hk
            rcases (hasKey_aggregate rs emptyCatalog res.var_name d).mp hk with
              ⟨r2, hr2, hkk⟩ | hbase
            · exact hcross r2 hr2 (res.var_name, d) hkk
                (mem_resKeys.mpr ⟨rfl, (dlookup_isSome d res.stats).mp hds⟩)
            · exact not_hasKey_nil _ _ hbase
          have hm0 : mcAt d m0 = 0 := by
            unfold hasKey at hkey
            rw [hv] at hkey
            simp only [Option.getD_some] at hkey
            unfold mcAt
            cases hdm : dlookup d m0 with
            | some s => exact absurd (by rw [hdm]; rfl) hkey
            | none => rfl
          rcases Option.isSome_iff_exists.mp hds with ⟨s, hs⟩
          rw [hm0] at hswap
          simp only [hs] at hswap
          rw [ih hdisj2 hwf2 d] at hswap
          rw [resContrib_some d hstats]
          simp only [hs]
          omega
        · have hds2 : dlookup d res.stats = none := by
            cases h2 : dlookup d res.stats with
            | some s => exact absurd (by rw [h2]; rfl) hds
            | none => rfl
          simp only [hds2] at hswap
          rw [ih hdisj2 hwf2 d] at hswap
          rw [resContrib_some d hstats]
          simp only [hds2]
          omega

theorem inner_lookup_some {V : List (String × List (String × DayStats))}
    {v d : String} {s : DayStats}
    (h : dlookup d ((dlookup v V).getD []) = some s) :
    ∃ m, dlookup v V = some m ∧ dlookup d m = some s := by
  cases hv : dlookup v V with
  | none =>
    rw [hv] at h
    simp [dlookup] at h
  | some m =>
    rw [hv] at h
    exact ⟨m, rfl, by simpa using h⟩

theorem aggregate_append_cons (c : Catalog) (l1 : List (Option FileResult))
    (x : Option FileResult) (l2 : List (Option FileResult)) :
    aggregate c (l1 ++ x :: l2) =
      aggregate (foldResult (aggregate c l1) x) l2 := by
  unfold aggregate
  rw [List.foldl_append]
  rfl

theorem aggregate_value_of_entry {rs : List (Option FileResult)}
    (hdisj : PairwiseDisjoint rs) (hwf : WFResults rs)
    {res : FileResult} (hres : some res ∈ rs) {d : String} {s : DayStats}
    (hmem : (d, s) ∈ res.stats) :
    dlookup d ((dlookup res.var_name
      (aggregate emptyCatalog rs).vars).getD []) = some s := by
  obtain ⟨l1, l2, rfl⟩ := List.append_of_mem hres
  have hstats : NodupKeys res.stats :=
    hwf (some res) (List.mem_append_right _ (List.mem_cons_self _ _))
  have hl2 : ∀ r2 ∈ l2, (res.var_name, d) ∉ resKeys r2 := by
    intro r2 hr2 hk
    have hp : List.Pairwise DisjResults (some res :: l2) :=
      (List.pairwise_append.mp hdisj).2.1
    exact (List.pairwise_cons.mp hp).1 r2 hr2 (res.var_name, d)
      (mem_resKeys.mpr ⟨rfl, List.mem_map_of_mem Prod.fst hmem⟩) hk
  rw [aggregate_append_cons]
  rw [value_preserved_aggregate l2 res.var_name d hl2]
  show dlookup d ((dlookup res.var_name
    (foldVars (aggregate emptyCatalog l1).vars (some res))).getD []) = some s
  exact value_set_foldVars rfl hstats hmem

/-- Counterexample to claim C2 as stated: two results for the same
(variable, date) — `rA` with count 1 and `rB` with count 2 — leave
`variables["air"]["2020-01-01"]` holding only the last write (count 2), while
`daily_summary` has accumulated `total_missing = 3`, so the claimed equality
with the catalog-wide sum fails. -/
theorem daily_total_collision_cex :
    totalAt "2020-01-01"
        (aggregate emptyCatalog [some rA, some rB]).daily_summary ≠
      varsTotal "2020-01-01" (aggregate emptyCatalog [some rA, some rB]).vars := by
  decide

/-- Claim C2 (amended): after any sequence of folds with no (variable, date)
key collision between distinct results — the condition §4.3 documents as the
last-write-wins exception — for every date in `daily_summary`:
`total_missing` equals the sum of `missing_count` over all (variable, date)
DayStats entries of the whole catalog, `variables_affected` is exactly the
set of variables with a DayStats entry for that date, and `max_percentage` is
the true maximum recorded `missing_percentage` for that date (the latter
under the data-model invariant that percentages are non-negative, since the
source seeds the running maximum with 0). -/
theorem daily_summary_invariant (rs : List (Option FileResult)) (d : String)
    (hdisj : PairwiseDisjoint rs) (hwf : WFResults rs)
    (hpos : ∀ res : FileResult, some res ∈ rs →
      ∀ e ∈ res.stats, (0 : ℚ) ≤ e.2.missing_percentage)
    (hd : (dlookup d (aggregate emptyCatalog rs).daily_summary).isSome = true) :
    totalAt d (aggregate emptyCatalog rs).daily_summary =
      varsTotal d (aggregate emptyCatalog rs).vars ∧
    (∀ v, v ∈ affectedAt d (aggregate emptyCatalog rs).daily_summary ↔
      hasKey (aggregate emptyCatalog rs).vars v d) ∧
    (∀ p ∈ catPcts d (aggregate emptyCatalog rs).vars,
      p ≤ maxAt d (aggregate emptyCatalog rs).daily_summary) ∧
    maxAt d (aggregate emptyCatalog rs).daily_summary ∈
      catPcts d (aggregate emptyCatalog rs).vars := by
  have hposall : ∀ p ∈ allPcts rs d, (0 : ℚ) ≤ p := by
    intro p hp
    rcases mem_allPcts.mp hp with ⟨r, hr, hpr⟩
    cases r with
    | none => simp [resPcts] at hpr
    | some res =>
      rcases mem_resPcts.mp hpr with ⟨e, he, _, hpe⟩
      exact hpe ▸ hpos res hr e he
  have hmax : maxAt d (aggregate emptyCatalog rs).daily_summary =
      List.foldl max 0 (allPcts rs d) := by
    rw [maxAt_aggregate]
    rfl
  refine ⟨?_, ?_, ?_, ?_⟩
  · rw [totalAt_aggregate, varsTotal_aggregate rs hdisj hwf d]
    simp [totalAt, emptyCatalog, dlookup, freshSummary]
  · intro v
    rw [affected_aggregate, hasKey_aggregate]
    constructor
    · rintro (h | h)
      · exact Or.inl h
      · simp [affectedAt, dlookup, freshSummary, emptyCatalog] at h
    · rintro (h | h)
      · exact Or.inl h
      · exact absurd h (not_hasKey_nil v d)
  · intro p hp
    rcases mem_catPcts.mp hp with ⟨e, he, s, hs, hpct⟩
    have hnd : NodupKeys (aggregate emptyCatalog rs).vars :=
      nodupKeys_aggregate rs emptyCatalog emptyCatalog_vars_nodup
    have hlook : dlookup e.1 (aggregate emptyCatalog rs).vars = some e.2 := by
      obtain ⟨e1, e2⟩ := e
      exact mem_dlookup hnd he
    have hinner : dlookup d ((dlookup e.1
        (aggregate emptyCatalog rs).vars).getD []) = some s := by
      rw [hlook]
      simpa using hs
    rcases value_src_aggregate rs emptyCatalog e.1 d s hinner with
      ⟨res, hres, hvn, hmem⟩ | hbase
    · have hpm : p ∈ allPcts rs d := by
        refine mem_allPcts.mpr ⟨some res, hres, ?_⟩
        exact mem_resPcts.mpr ⟨(d, s), hmem, rfl, hpct⟩
      rw [hmax]
      exact foldl_max_ub _ 0 p hpm
    · simp [emptyCatalog, dlookup] at hbase
  · have hne : allPcts rs d ≠ [] := by
      rcases (isSomeAt_aggregate rs emptyCatalog d).mp hd with ⟨r, hr, v, hv⟩ | hbase
      · cases r with
        | none => simp [resKeys] at hv
        | some res =>
          have hdk : d ∈ dkeys res.stats := (mem_resKeys.mp hv).2
          rcases List.mem_map.mp hdk with ⟨e, he, hed⟩
          have : e.2.missing_percentage ∈ allPcts rs d :=
            mem_allPcts.mpr ⟨some res, hr,
              mem_resPcts.mpr ⟨e, he, hed, rfl⟩⟩
          exact List.ne_nil_of_mem this
      · simp [emptyCatalog, dlookup] at hbase
    have hmem0 : List.foldl max 0 (allPcts rs d) ∈ allPcts rs d :=
      foldl_max_mem_of_nonneg hposall hne
    rw [hmax]
    rcases mem_allPcts.mp hmem0 with ⟨r, hr, hpr⟩
    cases r with
    | none => simp [resPcts] at hpr
    | some res =>
      rcases mem_resPcts.mp hpr with ⟨e, he, hed, hpe⟩
      have hmem2 : (d, e.2) ∈ res.stats := by
        obtain ⟨e1, e2⟩ := e
        cases hed
        exact he
      have hval := aggregate_value_of_entry hdisj hwf hr hmem2
      rcases inner_lookup_some hval with ⟨m, hm, hdm⟩
      refine mem_catPcts.mpr ⟨(res.var_name, m), dlookup_mem hm, e.2, hdm, hpe⟩

theorem daily_summary_invariant_witness :
    (totalAt "2020-01-01" (aggregate emptyCatalog [some rA]).daily_summary =
      varsTotal "2020-01-01" (aggregate emptyCatalog [some rA]).vars) ∧
    ("air" ∈ affectedAt "2020-01-01"
        (aggregate emptyCatalog [some rA]).daily_summary ↔
      hasKey (aggregate emptyCatalog [some rA]).vars "air" "2020-01-01") ∧
    maxAt "2020-01-01" (aggregate emptyCatalog [some rA]).daily_summary ∈
      catPcts "2020-01-01" (aggregate emptyCatalog [some rA]).vars := by
  have h := daily_summary_invariant [some rA] "2020-01-01"
    (List.Pairwise.cons (by simp) List.Pairwise.nil)
    (by
      intro r hr
      rw [List.mem_singleton] at hr
      subst hr
      show (dkeys rA.stats).Nodup
      decide)
    (by
      intro res hres e he
      rw [List.mem_singleton] at hres
      injection hres with hres
      subst hres
      rw [show rA.stats = [("2020-01-01", ⟨1, 4, 25⟩)] from rfl,
        List.mem_singleton] at he
      subst he
      decide)
    (by decide)
  exact ⟨h.1, h.2.1 "air", h.2.2.2⟩
